import Mathlib

/-!
Verification development for the workflow validation and safe-execution engine
of the workflow-builder backend (`backend/app/workflow/validator.py` and
`backend/app/workflow/executor_safe.py`).

The Python code is shallowly embedded: JSON-style node outputs become
association lists with Python-dict semantics (`dictSet`, `dictUpdate`),
the workflow definition becomes a structure of node and edge lists, and the
imperative loops (Kahn's algorithm, the DFS connectivity check, the node
execution loop) become fuel-indexed or structurally recursive functions that
mirror the source line by line.  External capabilities (the node `run`
methods, wall-clock timestamps, semaphore acquisition outcomes and thread
timeouts) are modelled as oracle parameters (`Env`), matching the spec's view
of them as abstract collaborators.
-/

/-- JSON-style values appearing in node outputs and configs.  The engine never
inspects value structure; strings and naturals suffice for the development
(wall-clock durations are abstracted as naturals supplied by an oracle). -/
inductive Value where
  | vStr (s : String)
  | vNat (n : Nat)
  deriving Repr, DecidableEq

/-- A Python dict with string keys, as an insertion-ordered association list
with unique keys (all dicts built by the engine keep keys unique). -/
abbrev Dict := List (String × Value)

/-- `d[k] = v` for a Python dict: replace in place if the key exists,
else append at the end. -/
def dictSet (d : Dict) (k : String) (v : Value) : Dict :=
  if d.any (fun p => p.1 == k) then
    d.map (fun p => if p.1 == k then (k, v) else p)
  else
    d ++ [(k, v)]

/-- `d.get(k)` for a Python dict. -/
def dictGet? (d : Dict) (k : String) : Option Value :=
  (d.find? (fun p => p.1 == k)).map (·.2)

/-- `d.update(other)` for a Python dict: set every key of `other` in order. -/
def dictUpdate (d other : Dict) : Dict :=
  other.foldl (fun acc kv => dictSet acc kv.1 kv.2) d

/-- `list(d.keys())` for a Python dict. -/
def dictKeys (d : Dict) : List String :=
  d.map (·.1)

/-- A dict is well-formed when its keys are unique (every real Python dict is). -/
def DictWF (d : Dict) : Prop :=
  (d.map (·.1)).Nodup

/-- A node of the workflow definition: `{"id": str, "type": str, "config": obj}`. -/
structure NodeDef where
  id : String
  type : String
  config : Dict
  deriving Repr, DecidableEq

/-- An edge of the workflow definition: `{"from": str, "to": str}`.
`src` renders the JSON key `from`, `tgt` renders `to`. -/
structure EdgeDef where
  src : String
  tgt : String
  deriving Repr, DecidableEq

/-- A workflow definition that already passed the shape phase: an object with
a `nodes` list and an `edges` list.  (Payloads that are not of this shape are
not representable in the typed embedding; `validateShape` comments on this.) -/
structure Workflow where
  nodes : List NodeDef
  edges : List EdgeDef
  deriving Repr, DecidableEq

/-- `node_ids = [n["id"] for n in nodes]` (duplicates kept, as in the source). -/
def nodeIds (w : Workflow) : List String :=
  w.nodes.map (·.id)

/-- `adj = {nid: []}; for e in edges: adj[e["from"]].append(e["to"])` —
the adjacency map built by both the validator and the executor.  Modelled as a
total function on strings; Python keys it by node ids only, but the extra
entries are never read by the algorithms. -/
def buildAdj (edges : List EdgeDef) : String → List String :=
  edges.foldl (fun m e => fun s => if s = e.src then m s ++ [e.tgt] else m s)
    (fun _ => [])

/-- `incoming = {nid: 0}; for e in edges: incoming[e["to"]] += 1`.
Counts live in `Int` because the executor's loop decrements them without a
floor, exactly as Python integers do. -/
def buildIncoming (edges : List EdgeDef) : String → Int :=
  edges.foldl (fun m e => fun s => if s = e.tgt then m s + 1 else m s)
    (fun _ => 0)

/-- `parents = {nid: []}; for e in edges: parents[e["to"]].append(e["from"])`:
the direct predecessors of `t` in edge-list order (closed form of the fold,
see `buildParents_eq`). -/
def parentsOf (w : Workflow) (t : String) : List String :=
  (w.edges.filter (fun e => e.tgt == t)).map (·.src)

/-- The fold form of the parents map, mirroring the source loop. -/
def buildParents (edges : List EdgeDef) : String → List String :=
  edges.foldl (fun m e => fun s => if s = e.tgt then m s ++ [e.src] else m s)
    (fun _ => [])

/-- Closed form of `buildAdj`: the targets of `s`'s edges in edge-list order. -/
theorem buildAdj_eq (edges : List EdgeDef) (s : String) :
    buildAdj edges s = (edges.filter (fun e => e.src == s)).map (·.tgt) := by
  suffices h : ∀ (m : String → List String),
      edges.foldl (fun m e => fun s => if s = e.src then m s ++ [e.tgt] else m s) m s
        = m s ++ (edges.filter (fun e => e.src == s)).map (·.tgt) by
    simpa [buildAdj] using h (fun _ => [])
  induction edges with
  | nil => intro m; simp
  | cons e es ih =>
    intro m
    by_cases hs : s = e.src
    · subst hs
      rw [List.foldl_cons, ih]
      simp [List.filter_cons]
    · have hbe : (e.src == s) = false := by
        simp [beq_iff_eq]; exact fun h => hs h.symm
      rw [List.foldl_cons, ih]
      simp [hs, List.filter_cons, hbe]

/-- Closed form of `buildIncoming`: the number of edges into `t`. -/
theorem buildIncoming_eq (edges : List EdgeDef) (t : String) :
    buildIncoming edges t = ((edges.filter (fun e => e.tgt == t)).length : Int) := by
  suffices h : ∀ (m : String → Int),
      edges.foldl (fun m e => fun s => if s = e.tgt then m s + 1 else m s) m t
        = m t + ((edges.filter (fun e => e.tgt == t)).length : Int) by
    simpa [buildIncoming] using h (fun _ => 0)
  induction edges with
  | nil => intro m; simp
  | cons e es ih =>
    intro m
    by_cases hs : t = e.tgt
    · subst hs
      rw [List.foldl_cons, ih]
      simp [List.filter_cons]
      ring
    · have hbe : (e.tgt == t) = false := by
        simp [beq_iff_eq]; exact fun h => hs h.symm
      rw [List.foldl_cons, ih]
      simp [hs, List.filter_cons, hbe]

/-- Closed form of `buildParents`, connecting the source fold to `parentsOf`. -/
theorem buildParents_eq (w : Workflow) (t : String) :
    buildParents w.edges t = parentsOf w t := by
  suffices h : ∀ (edges : List EdgeDef) (m : String → List String),
      edges.foldl (fun m e => fun s => if s = e.tgt then m s ++ [e.src] else m s) m t
        = m t ++ (edges.filter (fun e => e.tgt == t)).map (·.src) by
    simpa [buildParents, parentsOf] using h w.edges (fun _ => [])
  intro edges
  induction edges with
  | nil => intro m; simp
  | cons e es ih =>
    intro m
    by_cases hs : t = e.tgt
    · subst hs
      rw [List.foldl_cons, ih]
      simp [List.filter_cons]
    · have hbe : (e.tgt == t) = false := by
        simp [beq_iff_eq]; exact fun h => hs h.symm
      rw [List.foldl_cons, ih]
      simp [hs, List.filter_cons, hbe]

/-- The body of Kahn's inner loop:
`for m in adj[n]: incoming[m] -= 1; if incoming[m] == 0: queue.append(m)`. -/
def kahnVisit (inc : String → Int) (pending : List String) :
    List String → (String → Int) × List String
  | [] => (inc, pending)
  | m :: rest =>
      let inc2 : String → Int := fun s => if s = m then inc m - 1 else inc s
      if inc2 m = 0 then kahnVisit inc2 (pending ++ [m]) rest
      else kahnVisit inc2 pending rest

/-- The Kahn while-loop:
`while queue: n = queue.pop(0); topo.append(n); <kahnVisit>`.
`fuel` bounds the number of iterations; since every string's count is strictly
decreasing and a string is appended only when its count first reaches zero,
the queue sees at most `|nodes| + |edges|` elements in total, so the fuel used
at the call site below always drains the queue, and the zero-fuel branch is
unreachable. -/
def kahnLoop (adj : String → List String) :
    Nat → List String → (String → Int) → List String → List String
  | 0, _, _, topo => topo
  | _ + 1, [], _, topo => topo
  | fuel + 1, n :: rest, inc, topo =>
      let p := kahnVisit inc rest (adj n)
      kahnLoop adj fuel p.2 p.1 (topo ++ [n])

/-- The topological order computed (identically) by
`detect_cycles_and_toposort` in the validator and by the inline Kahn block of
`execute_workflow_safe` (the executor iterates `incoming.items()`, whose key
order is node-list insertion order, i.e. the same seed order as the
validator's list comprehension). -/
def kahnTopo (w : Workflow) : List String :=
  kahnLoop (buildAdj w.edges) ((nodeIds w).length + w.edges.length + 1)
    ((nodeIds w).filter (fun nid => buildIncoming w.edges nid = 0))
    (buildIncoming w.edges) []

/-- One validation error: `ValidationErrorItem(field, message)`. -/
structure ValidationErrorItem where
  field : String
  message : String
  deriving Repr, DecidableEq

/-- `NODE_TYPES = {"user_query", "knowledge_base", "llm_engine", "output"}`. -/
def NODE_TYPES : List String :=
  ["user_query", "knowledge_base", "llm_engine", "output"]

/-- `MAX_NODES = 50`. -/
def MAX_NODES : Nat := 50

/-- `MAX_EDGES = 200`. -/
def MAX_EDGES : Nat := 200

/-- `validate_shape`: in the typed embedding the workflow is an object with a
`nodes` list and an `edges` list by construction, so the shape phase finds no
errors.  (Non-object payloads and missing lists are not representable here;
none of the claims concern them.) -/
def validateShape (_w : Workflow) : List ValidationErrorItem :=
  []

/-- The per-node half of `validate_nodes_and_edges`: walks the node list with
its index, collecting errors and accumulating the set of seen ids (Python's
`ids`; a list used only through membership).  `not nid` is rendered as
`n.id = ""` (the only falsy string).  Config is an object by construction and
`REQUIRED_NODE_CONFIG` maps every type to `[]`, so those checks add nothing. -/
def checkNodes : Nat → List String → List NodeDef →
    (List ValidationErrorItem × List String)
  | _, ids, [] => ([], ids)
  | idx, ids, n :: rest =>
      let idErrs : List ValidationErrorItem :=
        if n.id = "" then
          [⟨s!"nodes[{idx}].id", "Node must have a string id"⟩]
        else if ids.contains n.id then
          [⟨s!"nodes[{idx}].id", s!"Duplicate node id {n.id}"⟩]
        else []
      let ids2 := if n.id = "" then ids
        else if ids.contains n.id then ids else ids ++ [n.id]
      let tyErrs : List ValidationErrorItem :=
        if NODE_TYPES.contains n.type then []
        else [⟨s!"nodes[{idx}].type", s!"Invalid or missing node type {n.type}"⟩]
      let restRes := checkNodes (idx + 1) ids2 rest
      (idErrs ++ tyErrs ++ restRes.1, restRes.2)

/-- The per-edge half of `validate_nodes_and_edges`: each edge endpoint must be
a nonempty string naming a known node id. -/
def checkEdges : Nat → List String → List EdgeDef → List ValidationErrorItem
  | _, _, [] => []
  | idx, ids, e :: rest =>
      let srcErrs : List ValidationErrorItem :=
        if e.src = "" then [⟨s!"edges[{idx}].from", "Missing/invalid from"⟩]
        else if ids.contains e.src then []
        else [⟨s!"edges[{idx}].from", s!"Unknown node id {e.src}"⟩]
      let tgtErrs : List ValidationErrorItem :=
        if e.tgt = "" then [⟨s!"edges[{idx}].to", "Missing/invalid to"⟩]
        else if ids.contains e.tgt then []
        else [⟨s!"edges[{idx}].to", s!"Unknown node id {e.tgt}"⟩]
      srcErrs ++ tgtErrs ++ checkEdges (idx + 1) ids rest

/-- `validate_nodes_and_edges`: size limits, then node checks, then edge
checks against the accumulated id set. -/
def validateNodesAndEdges (w : Workflow) : List ValidationErrorItem :=
  let limitErrs : List ValidationErrorItem :=
    (if w.nodes.length > MAX_NODES then
      [⟨"nodes", s!"Too many nodes (max {MAX_NODES})"⟩] else []) ++
    (if w.edges.length > MAX_EDGES then
      [⟨"edges", s!"Too many edges (max {MAX_EDGES})"⟩] else [])
  let nodeRes := checkNodes 0 [] w.nodes
  limitErrs ++ nodeRes.1 ++ checkEdges 0 nodeRes.2 w.edges

/-- `find_roots_and_leaves` (computed and then discarded by
`validate_workflow`; kept for completeness of the embedding). -/
def findRootsAndLeaves (w : Workflow) : List String × List String :=
  let roots := (nodeIds w).filter
    (fun nid => (w.edges.filter (fun e => e.tgt == nid)).length = 0)
  let leaves := (nodeIds w).filter
    (fun nid => (w.edges.filter (fun e => e.src == nid)).length = 0)
  (roots, leaves)

/-- The DFS of the connectivity check:
`stack = [start]; while stack: cur = stack.pop(); ...` — `pop()` takes the
last element, new neighbours are appended at the end in adjacency order.
Each edge pushes its target at most once (its source is visited at most
once), so at most `1 + |edges|` iterations ever occur and the fuel used at
the call site always suffices. -/
def dfsLoop (adj : String → List String) :
    Nat → List String → List String → List String
  | 0, _, reach => reach
  | _ + 1, [], reach => reach
  | fuel + 1, st@(_ :: _), reach =>
      let cur := st.getLastD ""
      let st1 := st.dropLast
      if reach.contains cur then dfsLoop adj fuel st1 reach
      else
        let reach1 := reach ++ [cur]
        let pushes := (adj cur).filter (fun nb => !reach1.contains nb)
        dfsLoop adj fuel (st1 ++ pushes) reach1

/-- The set of nodes reachable from `start` per the validator's DFS. -/
def reachableFrom (w : Workflow) (start : String) : List String :=
  dfsLoop (buildAdj w.edges) (w.edges.length + (nodeIds w).length + 2) [start] []

/-- `user_query_nodes`: ids of the entry-type nodes, in node-list order
(`types_by_id.items()` iterates insertion order; ids are unique whenever the
graph phase runs). -/
def userQueryNodesOf (w : Workflow) : List String :=
  (w.nodes.filter (fun n => n.type == "user_query")).map (·.id)

/-- `output_nodes`: ids of the terminal-type nodes, in node-list order. -/
def outputNodesOf (w : Workflow) : List String :=
  (w.nodes.filter (fun n => n.type == "output")).map (·.id)

/-- The aggregated error of the single-entry check. -/
def uqErrItem : ValidationErrorItem :=
  ⟨"user_query", "Workflow must contain exactly one user_query node"⟩

/-- The aggregated error of the at-least-one-terminal check. -/
def outputErrItem : ValidationErrorItem :=
  ⟨"output", "Workflow must contain at least one output node"⟩

/-- The aggregated error of the cycle check. -/
def cycleErrItem : ValidationErrorItem :=
  ⟨"workflow", "Cycle detected in workflow (graph is not a DAG)"⟩

/-- Entry-count errors of the graph phase. -/
def uqPhaseErrs (w : Workflow) (requireSingle : Bool) : List ValidationErrorItem :=
  if requireSingle && !((userQueryNodesOf w).length == 1) then [uqErrItem] else []

/-- Terminal-count errors of the graph phase. -/
def outputPhaseErrs (w : Workflow) : List ValidationErrorItem :=
  if (outputNodesOf w).length < 1 then [outputErrItem] else []

/-- Nodes not reached by the DFS from `start`
(`node_ids - reachable`; Python iterates the set, we keep node-list order —
only the emptiness of this list is ever tested). -/
def unreachableFrom (w : Workflow) (start : String) : List String :=
  (nodeIds w).filter (fun nid => !(reachableFrom w start).contains nid)

/-- Connectivity errors of the graph phase (skipped when no entry node
exists, as in the source's `if user_query_nodes:` guard). -/
def connPhaseErrs (w : Workflow) : List ValidationErrorItem :=
  match userQueryNodesOf w with
  | [] => []
  | start :: _ =>
      let unreachable := unreachableFrom w start
      if unreachable.isEmpty then []
      else [⟨"connectivity", s!"Unreachable nodes from user_query: {unreachable}"⟩]

/-- Cycle errors: `detect_cycles_and_toposort` reports a cycle exactly when
the produced order is shorter than the node-id list. -/
def cyclePhaseErrs (w : Workflow) : List ValidationErrorItem :=
  if (kahnTopo w).length == (nodeIds w).length then [] else [cycleErrItem]

/-- The graph phase of `validate_workflow`: entry count, terminal count,
connectivity, cycles — all collected into one list. -/
def graphPhaseErrors (w : Workflow) (requireSingle : Bool) : List ValidationErrorItem :=
  uqPhaseErrs w requireSingle ++ outputPhaseErrs w ++ connPhaseErrs w
    ++ cyclePhaseErrs w

/-- `validate_workflow`: shape phase, then (if clean) the structural phase,
then (if clean) the graph phase; the returned list is the aggregated error
set of the first phase that found any, `[]` meaning validation passed
(Python raises `WorkflowValidationError(errors)` when nonempty). -/
def validateWorkflowErrors (w : Workflow) (requireSingle : Bool) : List ValidationErrorItem :=
  let shapeErrs := validateShape w
  if !shapeErrs.isEmpty then shapeErrs
  else
    let structErrs := validateNodesAndEdges w
    if !structErrs.isEmpty then structErrs
    else graphPhaseErrors w requireSingle

/-- Membership of a directed edge `a -> b` in the definition. -/
def EdgeMem (w : Workflow) (a b : String) : Prop :=
  ∃ e ∈ w.edges, e.src = a ∧ e.tgt = b

/-- Reachability along directed edges (reflexive-transitive closure),
used to state connectivity and cycles abstractly. -/
inductive Reaches (w : Workflow) : String → String → Prop
  | refl (a : String) : Reaches w a a
  | step {a b c : String} : Reaches w a b → EdgeMem w b c → Reaches w a c

/-- A workflow contains a directed cycle (a self-loop being the special case
`EdgeMem u u` with the reflexive path). -/
def HasCycle (w : Workflow) : Prop :=
  ∃ u v, EdgeMem w u v ∧ Reaches w v u

/-- The possible outcomes of `node_obj.run(inputs)` as awaited by
`_safe_run_node`'s worker thread: a returned dict, expiry of the
`future.result(timeout=...)` wait, or an exception from the node itself.
(`result` not being a dict is unrepresentable in the typed embedding.) -/
inductive BodyOutcome where
  | ok (d : Dict)
  | timeout
  | exn (msg : String)
  deriving Repr, DecidableEq

/-- Ghost view of the shared LLM semaphore: available permits plus counters of
acquire/release operations performed, to state the no-leak property. -/
structure SemLog where
  permits : Int
  acquires : Nat
  releases : Nat
  deriving Repr, DecidableEq

/-- `_llm_semaphore.acquire()` succeeding. -/
def semAcquire (s : SemLog) : SemLog :=
  { s with permits := s.permits - 1, acquires := s.acquires + 1 }

/-- `_llm_semaphore.release()`. -/
def semRelease (s : SemLog) : SemLog :=
  { s with permits := s.permits + 1, releases := s.releases + 1 }

/-- `LLM_CONCURRENCY_LIMIT = 4`. -/
def LLM_CONCURRENCY_LIMIT : Int := 4

/-- `_safe_run_node`, as a function of the oracle outcomes of its two
suspension points: `acquireOk` tells whether the bounded semaphore wait
succeeded (only consulted for LLM nodes), `body` is the outcome of the
invocation itself.  On success the measured duration (`durInner`, abstracting
the `perf_counter` difference) is injected into the result under
`_exec_duration`.  The `finally` block releases the permit on every path out
of the `try`, and no permit is touched when acquisition timed out. -/
def safeRunNodeModel (isLLM acquireOk : Bool) (body : BodyOutcome) (durInner : Nat)
    (s : SemLog) : Except String Dict × SemLog :=
  if isLLM && !acquireOk then
    (.error "Could not acquire LLM semaphore (too many concurrent LLM calls)", s)
  else
    let s1 := if isLLM then semAcquire s else s
    let s2 := if isLLM then semRelease s1 else s1
    match body with
    | .timeout => (.error "Node execution timed out", s2)
    | .exn m => (.error m, s2)
    | .ok d => (.ok (dictSet d "_exec_duration" (Value.vNat durInner)), s2)

/-- `COMPONENT_MAP`'s key set, in insertion order: the node types the engine
can instantiate (`COMPONENT_MAP.get(node_type)` is `None` otherwise). -/
def componentTypes : List String :=
  ["user_query", "knowledge_base", "llm_engine", "output"]

/-- One finished trace entry.  In the source the entry dict is appended with
`node_id`, `node_type`, `started_at` and then updated in place once the node
settles; the embedding records the settled entry.  `started_at` abstracts the
UTC timestamp, `duration_seconds` the measured wall-clock duration (`None`
when the update did not set the field). -/
structure TraceEntry where
  node_id : String
  node_type : String
  started_at : Nat
  status : String
  duration_seconds : Option Nat
  output_keys : Option (List String)
  error : Option String
  deriving Repr, DecidableEq

/-- The entry of a node that succeeded
(`status/duration_seconds/output_keys` update). -/
def successEntry (nid nty : String) (startedAt durOuter : Nat) (out : Dict) :
    TraceEntry :=
  { node_id := nid, node_type := nty, started_at := startedAt,
    status := "success", duration_seconds := some durOuter,
    output_keys := some (dictKeys out), error := none }

/-- The entry of a node that failed (`status/error` update; no duration). -/
def errorEntry (nid nty : String) (startedAt : Nat) (msg : String) : TraceEntry :=
  { node_id := nid, node_type := nty, started_at := startedAt,
    status := "error", duration_seconds := none,
    output_keys := none, error := some msg }

/-- The execution context: `context_map`, node id to recorded output. -/
abbrev Ctx := String → Option Dict

/-- Setting `context_map[nid] = out`. -/
def ctxSet (ctx : Ctx) (nid : String) (out : Dict) : Ctx :=
  fun s => if s = nid then some out else ctx s

/-- The oracle environment of one engine run: the behaviour of every node
capability (`node_obj.run`, including provider failures; timeout/semaphore
verdicts come through `acquireOk`/`BodyOutcome`), and the wall-clock readings
of the `step`-th attempted node (`started_at`, the engine's outer duration,
and `_safe_run_node`'s inner duration). -/
structure Env where
  body : NodeDef → Dict → BodyOutcome
  acquireOk : Nat → Bool
  startedAt : Nat → Nat
  durOuter : Nat → Nat
  durInner : Nat → Nat

/-- `nodes_meta[nid]`: the node carrying a given id.  `nodes_meta` is a dict
comprehension, so on duplicate ids Python would keep the last occurrence; the
engine only runs on validated definitions, where ids are unique and `find?`
agrees. -/
def lookupNode (w : Workflow) (nid : String) : Option NodeDef :=
  w.nodes.find? (fun n => n.id == nid)

/-- Input assembly for one node: merge the recorded outputs of its direct
predecessors in edge-list order (`inputs.update(parent_out)`, last write
wins); a node with no predecessors reads its own seeded context entry
(`context_map.get(node_id, {})`). -/
def assembleInput (w : Workflow) (ctx : Ctx) (nid : String) : Dict :=
  let ps := parentsOf w nid
  if ps.isEmpty then (ctx nid).getD []
  else ps.foldl (fun acc p => dictUpdate acc ((ctx p).getD [])) []

/-- Outcome of the per-node loop of `execute_workflow_safe`: either the
structured error dict returned on the first failure, or the final context and
trace. -/
inductive LoopResult where
  | failed (node_id node_type error_message : String) (trace : List TraceEntry)
  | done (ctx : Ctx) (trace : List TraceEntry)

/-- The per-node loop of `execute_workflow_safe`: walk the scheduler order,
skip node types absent from `COMPONENT_MAP` (dead after validation), assemble
inputs, run the node through `_safe_run_node`, append one trace entry, record
the output, and stop with the structured error on the first failure.  The
oracle index of each attempt is the current trace length (the number of nodes
attempted so far). -/
def execLoop (env : Env) (w : Workflow) :
    List String → Ctx → List TraceEntry → LoopResult
  | [], ctx, tr => .done ctx tr
  | nid :: rest, ctx, tr =>
      match lookupNode w nid with
      | none => execLoop env w rest ctx tr
      | some n =>
          if componentTypes.contains n.type then
            let inputs := assembleInput w ctx nid
            let step := tr.length
            let r := (safeRunNodeModel (n.type == "llm_engine") (env.acquireOk step)
              (env.body n inputs) (env.durInner step)
              { permits := LLM_CONCURRENCY_LIMIT, acquires := 0, releases := 0 }).1
            match r with
            | .ok out =>
                execLoop env w rest (ctxSet ctx nid out)
                  (tr ++ [successEntry nid n.type (env.startedAt step) (env.durOuter step) out])
            | .error msg =>
                .failed nid n.type msg
                  (tr ++ [errorEntry nid n.type (env.startedAt step) msg])
          else
            execLoop env w rest ctx tr

/-- The id of the entry node the engine seeds: `user_nodes[0]`. -/
def startNodeId (w : Workflow) : String :=
  (userQueryNodesOf w).headD ""

/-- The seeded context: `context_map[start_node_id] = {"query": user_query}`. -/
def initialCtx (w : Workflow) (userQuery : String) : Ctx :=
  fun s => if s = startNodeId w then some [("query", Value.vStr userQuery)] else none

/-- The overall result of `execute_workflow_safe`: a validation failure
(re-raised `WorkflowValidationError`), the uncaught `NodeExecutionError` of
the dead no-entry-node check, the structured node-error dict, or the success
dict `{"result": ..., "trace": ...}`. -/
inductive RunResult where
  | validationError (errors : List ValidationErrorItem)
  | noUserQueryError
  | nodeError (node_id node_type error_message : String) (trace : List TraceEntry)
  | success (result : Dict) (trace : List TraceEntry)

/-- `execute_workflow_safe(workflow, user_query)`: validate, compute the
topological order, seed the entry node's context, run the loop, and on full
success surface the first terminal-type node's recorded output
(`final_outputs[0] if final_outputs else {}`, over the node-list-ordered
`output_nodes`). -/
def executeWorkflowSafe (env : Env) (w : Workflow) (userQuery : String) : RunResult :=
  if !(validateWorkflowErrors w true).isEmpty then
    .validationError (validateWorkflowErrors w true)
  else
    match userQueryNodesOf w with
    | [] => .noUserQueryError
    | _ :: _ =>
      match execLoop env w (kahnTopo w) (initialCtx w userQuery) [] with
      | .failed nid nty msg tr => .nodeError nid nty msg tr
      | .done ctx tr =>
          .success (((outputNodesOf w).map (fun nid => (ctx nid).getD [])).headD []) tr

/-- The final execution context of a fully successful run (the engine
discards `context_map`; this derived observable exposes the recorded outputs
for the statements below). -/
def execContext (env : Env) (w : Workflow) (userQuery : String) : Option Ctx :=
  if !(validateWorkflowErrors w true).isEmpty then none
  else
    match userQueryNodesOf w with
    | [] => none
    | _ :: _ =>
      match execLoop env w (kahnTopo w) (initialCtx w userQuery) [] with
      | .failed _ _ _ _ => none
      | .done ctx _ => some ctx

/-- A dict carries the injected execution-duration key. -/
def hasExecDur (d : Dict) : Bool :=
  (dictGet? d "_exec_duration").isSome

/-! ### Dict lemmas -/

/-- Looking up the key just set yields the new value
(for any dict, even one with duplicate keys). -/
theorem dictGet?_dictSet_self (d : Dict) (k : String) (v : Value) :
    dictGet? (dictSet d k v) k = some v := by
  unfold dictSet
  by_cases h : d.any (fun p => p.1 == k)
  · simp only [h, if_true]
    induction d with
    | nil => simp at h
    | cons p d ih =>
        by_cases hp : p.1 = k
        · simp [dictGet?, hp]
        · have hb : (p.1 == k) = false := by simpa using hp
          have htail : d.any (fun p => p.1 == k) := by
            simp only [List.any_cons, hb, Bool.false_or] at h
            exact h
          simp only [List.map_cons, hb, if_false]
          rw [dictGet?, List.find?_cons_of_neg _ (by simpa using hp)]
          exact ih htail
  · simp only [h, if_false]
    have hnone : d.find? (fun p => p.1 == k) = none := by
      rw [List.find?_eq_none]
      intro x hx hpx
      exact h (List.any_eq_true.mpr ⟨x, hx, hpx⟩)
    simp [dictGet?, List.find?_append, hnone, Option.or]

/-- Replacing the pairs keyed `k` does not change lookups at other keys. -/
theorem dictGet?_map_replace_ne (d : Dict) (k k' : String) (v : Value)
    (hne : k' ≠ k) :
    dictGet? (d.map (fun p => if p.1 == k then (k, v) else p)) k'
      = dictGet? d k' := by
  induction d with
  | nil => rfl
  | cons p d ih =>
      by_cases hp : p.1 = k
      · have h1 : (p.1 == k) = true := by simpa using hp
        have h2 : ((k, v).1 == k') = false := by
          simpa using fun hh => hne hh.symm
        have h3 : (p.1 == k') = false := by
          simp [hp]; exact fun hh => hne hh.symm
        simp only [List.map_cons, h1, if_true]
        rw [dictGet?, List.find?_cons_of_neg _ (by simp [h2]),
          dictGet?, List.find?_cons_of_neg _ (by simp [h3])]
        exact ih
      · have h1 : (p.1 == k) = false := by simpa using hp
        simp only [List.map_cons, h1, if_false]
        by_cases hp' : p.1 = k'
        · simp [dictGet?, hp']
        · rw [dictGet?, List.find?_cons_of_neg _ (by simpa using hp'),
            dictGet?, List.find?_cons_of_neg _ (by simpa using hp')]
          exact ih

/-- Looking up a different key is unaffected by `dictSet`. -/
theorem dictGet?_dictSet_ne (d : Dict) (k k' : String) (v : Value) (hne : k' ≠ k) :
    dictGet? (dictSet d k v) k' = dictGet? d k' := by
  unfold dictSet
  by_cases h : d.any (fun p => p.1 == k)
  · simp only [h, if_true]
    exact dictGet?_map_replace_ne d k k' v hne
  · rw [if_neg h]
    have hb : ((k, v).1 == k') = false := by simpa using fun hh => hne hh.symm
    rw [dictGet?, dictGet?, List.find?_append]
    have h2 : List.find? (fun p => p.1 == k') [(k, v)] = none := by
      simp [hb]
    rw [h2]
    cases List.find? (fun p => p.1 == k') d <;> rfl

/-- Key membership after `dictSet`: the new key plus the old keys. -/
theorem mem_dictKeys_dictSet (d : Dict) (k k' : String) (v : Value) :
    k' ∈ dictKeys (dictSet d k v) ↔ k' = k ∨ k' ∈ dictKeys d := by
  unfold dictSet
  by_cases h : d.any (fun p => p.1 == k)
  · rw [if_pos h]
    obtain ⟨p0, hp0, hp0k⟩ := List.any_eq_true.mp h
    have hp0k' : p0.1 = k := by simpa using hp0k
    have hkeys : dictKeys (d.map (fun p => if p.1 == k then (k, v) else p))
        = dictKeys d := by
      unfold dictKeys
      rw [List.map_map]
      apply List.map_congr_left
      intro p hp
      by_cases hpk : p.1 = k
      · simp [Function.comp, hpk]
      · simp [Function.comp, hpk]
    rw [hkeys]
    constructor
    · exact Or.inr
    · rintro (hk | hmem)
      · subst hk
        exact List.mem_map.mpr ⟨p0, hp0, hp0k'⟩
      · exact hmem
  · rw [if_neg h]
    simp only [dictKeys, List.map_append, List.map_cons, List.map_nil,
      List.mem_append, List.mem_cons, List.not_mem_nil, or_false]
    tauto

/-- A key is present exactly when lookup succeeds. -/
theorem mem_dictKeys_iff_isSome (d : Dict) (k : String) :
    k ∈ dictKeys d ↔ (dictGet? d k).isSome := by
  induction d with
  | nil => simp [dictKeys, dictGet?]
  | cons p d ih =>
      by_cases hp : p.1 = k
      · simp [dictKeys, dictGet?, hp]
      · have h1 : (p.1 == k) = false := by simp [beq_iff_eq]; exact hp
        have h2 : ¬ (k = p.1) := fun hh => hp hh.symm
        rw [dictGet?, List.find?_cons_of_neg _ (by simp [h1])]
        rw [dictGet?] at ih
        simp only [dictKeys, List.map_cons, List.mem_cons] at ih ⊢
        tauto

/-- `dictUpdate` keeps exactly the union of the two key sets. -/
theorem dictKeys_dictUpdate_mem (d o : Dict) (k : String) :
    k ∈ dictKeys (dictUpdate d o) ↔ k ∈ dictKeys d ∨ k ∈ dictKeys o := by
  unfold dictUpdate
  induction o generalizing d with
  | nil => simp [dictKeys]
  | cons kv o ih =>
      rw [List.foldl_cons, ih, mem_dictKeys_dictSet]
      simp only [dictKeys, List.map_cons, List.mem_cons]
      tauto

/-- Lookup through `dictUpdate` when the updating dict is a real Python dict
(unique keys): its value wins, otherwise the base dict answers. -/
theorem dictGet?_dictUpdate (d o : Dict) (k : String) (wf : DictWF o) :
    dictGet? (dictUpdate d o) k = (dictGet? o k).or (dictGet? d k) := by
  unfold dictUpdate
  induction o generalizing d with
  | nil => simp [dictGet?, Option.or]
  | cons kv o ih =>
      have wfTail : DictWF o := (List.nodup_cons.mp wf).2
      have hknotin : kv.1 ∉ dictKeys o := (List.nodup_cons.mp wf).1
      rw [List.foldl_cons, ih _ wfTail]
      by_cases hk : k = kv.1
      · have hnone : dictGet? o k = none := by
          cases ho : dictGet? o k with
          | none => rfl
          | some v =>
              exfalso
              apply hknotin
              rw [← hk, mem_dictKeys_iff_isSome, ho]
              rfl
        have hset : dictGet? (dictSet d kv.1 kv.2) k = some kv.2 := by
          rw [hk]
          exact dictGet?_dictSet_self _ _ _
        have hhead : dictGet? (kv :: o) k = some kv.2 := by
          simp [dictGet?, hk]
        rw [hnone, hset, hhead]
        rfl
      · rw [dictGet?_dictSet_ne _ _ _ _ hk]
        have hhead : dictGet? (kv :: o) k = dictGet? o k := by
          rw [dictGet?, List.find?_cons_of_neg _ (by simpa using fun hh => hk hh.symm)]
          rfl
        rw [hhead]

/-- The value supplied for key `k` by the latest element of `ps` whose dict
carries the key — the "later predecessor wins" merge rule of the spec. -/
def lastWins (out : String → Dict) (ps : List String) (k : String) : Option Value :=
  match ps with
  | [] => none
  | p :: rest => (lastWins out rest k).or (dictGet? (out p) k)

/-- Lookup through the parent-merge fold: the latest merged dict carrying the
key wins, else the accumulator answers. -/
theorem foldl_dictUpdate_lookup (out : String → Dict) (ps : List String)
    (a : Dict) (k : String) (wf : ∀ p ∈ ps, DictWF (out p)) :
    dictGet? (ps.foldl (fun acc p => dictUpdate acc (out p)) a) k
      = (lastWins out ps k).or (dictGet? a k) := by
  induction ps generalizing a with
  | nil => simp [lastWins, Option.or]
  | cons p ps ih =>
      rw [List.foldl_cons, ih _ (fun q hq => wf q (List.mem_cons_of_mem _ hq))]
      rw [dictGet?_dictUpdate _ _ _ (wf p (List.mem_cons_self _ _))]
      show _ = (lastWins out (p :: ps) k).or _
      rw [lastWins]
      cases lastWins out ps k <;> cases dictGet? (out p) k <;> rfl

/-! ### Validator extraction lemmas -/

/-- A clean node pass certifies: every id nonempty, fresh w.r.t. the incoming
id set and pairwise distinct; every type registered; and the returned id set
is the union of the incoming ids and the listed ids. -/
theorem checkNodes_ok (ns : List NodeDef) :
    ∀ (idx : Nat) (ids : List String), (checkNodes idx ids ns).1 = [] →
      (∀ n ∈ ns, n.id ≠ "" ∧ n.id ∉ ids ∧ n.type ∈ NODE_TYPES) ∧
      (ns.map (·.id)).Nodup ∧
      (∀ x, x ∈ (checkNodes idx ids ns).2 ↔ x ∈ ids ∨ x ∈ ns.map (·.id)) := by
  induction ns with
  | nil =>
      intro idx ids _
      refine ⟨by simp, by simp, ?_⟩
      intro x
      simp [checkNodes]
  | cons n rest ih =>
      intro idx ids hclean
      rw [checkNodes] at hclean
      simp only [List.append_eq_nil] at hclean
      obtain ⟨⟨hid, hty⟩, hrest⟩ := hclean
      have hidne : n.id ≠ "" := by
        intro hc
        rw [if_pos hc] at hid
        exact List.cons_ne_nil _ _ hid
      have hfresh : ¬ ids.contains n.id := by
        intro hc
        rw [if_neg hidne, if_pos hc] at hid
        exact List.cons_ne_nil _ _ hid
      have hfresh' : n.id ∉ ids := by
        intro hc
        exact hfresh (by simpa using hc)
      have htyok : n.type ∈ NODE_TYPES := by
        by_contra hc
        rw [if_neg (by simpa using hc)] at hty
        exact List.cons_ne_nil _ _ hty
      have hids2 : (if n.id = "" then ids
          else if ids.contains n.id then ids else ids ++ [n.id]) = ids ++ [n.id] := by
        rw [if_neg hidne, if_neg hfresh]
      obtain ⟨ihProp, ihNodup, ihMem⟩ := ih (idx + 1) (ids ++ [n.id]) (by
        rw [← hids2]
        exact hrest)
      refine ⟨?_, ?_, ?_⟩
      · intro m hm
        rcases List.mem_cons.mp hm with hm | hm
        · subst hm
          exact ⟨hidne, hfresh', htyok⟩
        · obtain ⟨h1, h2, h3⟩ := ihProp m hm
          exact ⟨h1, fun hc => h2 (List.mem_append_left _ hc), h3⟩
      · rw [List.map_cons, List.nodup_cons]
        refine ⟨?_, ihNodup⟩
        intro hc
        rcases List.mem_map.mp hc with ⟨m, hm, hmid⟩
        exact (ihProp m hm).2.1 (List.mem_append_right _ (by simp [hmid]))
      · intro x
        rw [checkNodes]
        simp only []
        have : (checkNodes (idx + 1)
            (if n.id = "" then ids
              else if ids.contains n.id then ids else ids ++ [n.id]) rest).2
            = (checkNodes (idx + 1) (ids ++ [n.id]) rest).2 := by
          rw [hids2]
        rw [this, ihMem x]
        simp [or_comm, or_assoc, or_left_comm]

/-- A clean edge pass certifies both endpoints of every edge are known ids. -/
theorem checkEdges_ok (es : List EdgeDef) :
    ∀ (idx : Nat) (ids : List String), checkEdges idx ids es = [] →
      ∀ e ∈ es, e.src ∈ ids ∧ e.tgt ∈ ids := by
  induction es with
  | nil => intro idx ids _ e he; simp at he
  | cons e rest ih =>
      intro idx ids hclean
      rw [checkEdges] at hclean
      simp only [List.append_eq_nil] at hclean
      obtain ⟨⟨hsrc, htgt⟩, hrest⟩ := hclean
      intro e' he'
      rcases List.mem_cons.mp he' with he' | he'
      · subst he'
        constructor
        · by_cases h0 : e'.src = ""
          · rw [if_pos h0] at hsrc
            exact absurd hsrc (List.cons_ne_nil _ _)
          · rw [if_neg h0] at hsrc
            by_cases hc : ids.contains e'.src
            · simpa using hc
            · rw [if_neg hc] at hsrc
              exact absurd hsrc (List.cons_ne_nil _ _)
        · by_cases h0 : e'.tgt = ""
          · rw [if_pos h0] at htgt
            exact absurd htgt (List.cons_ne_nil _ _)
          · rw [if_neg h0] at htgt
            by_cases hc : ids.contains e'.tgt
            · simpa using hc
            · rw [if_neg hc] at htgt
              exact absurd htgt (List.cons_ne_nil _ _)
      · exact ih _ _ hrest e' he'

/-- A clean structural phase certifies unique node ids, registered node types
and edge endpoints naming existing nodes. -/
theorem structOK (w : Workflow) (h : validateNodesAndEdges w = []) :
    (nodeIds w).Nodup ∧
    (∀ n ∈ w.nodes, n.id ≠ "" ∧ n.type ∈ NODE_TYPES) ∧
    (∀ e ∈ w.edges, e.src ∈ nodeIds w ∧ e.tgt ∈ nodeIds w) := by
  rw [validateNodesAndEdges] at h
  simp only [List.append_eq_nil] at h
  obtain ⟨⟨_, hnodes⟩, hedges⟩ := h
  obtain ⟨hProp, hNodup, hMem⟩ := checkNodes_ok w.nodes 0 [] hnodes
  refine ⟨hNodup, ?_, ?_⟩
  · intro n hn
    obtain ⟨h1, _, h3⟩ := hProp n hn
    exact ⟨h1, h3⟩
  · intro e he
    have := checkEdges_ok w.edges 0 (checkNodes 0 [] w.nodes).2 hedges e he
    constructor
    · have := (hMem e.src).mp this.1
      simpa [nodeIds] using this
    · have := (hMem e.tgt).mp this.2
      simpa [nodeIds] using this

/-- Passing validation means the structural phase was clean and every graph
check was clean. -/
theorem validatePass (w : Workflow) (h : validateWorkflowErrors w true = []) :
    validateNodesAndEdges w = [] ∧
    (userQueryNodesOf w).length = 1 ∧
    1 ≤ (outputNodesOf w).length ∧
    (∃ s rest0, userQueryNodesOf w = s :: rest0 ∧ unreachableFrom w s = []) ∧
    (kahnTopo w).length = (nodeIds w).length := by
  have h' : (if !(validateNodesAndEdges w).isEmpty then validateNodesAndEdges w
      else graphPhaseErrors w true) = [] := h
  clear h
  by_cases hs : validateNodesAndEdges w = []
  · have hcond : ¬((!(validateNodesAndEdges w).isEmpty) = true) := by
      simp [hs]
    rw [if_neg hcond, graphPhaseErrors] at h'
    simp only [List.append_eq_nil] at h'
    obtain ⟨⟨⟨huq, hout⟩, hconn⟩, hcyc⟩ := h'
    have huq1 : (userQueryNodesOf w).length = 1 := by
      by_contra hc
      rw [uqPhaseErrs, if_pos (by simpa using hc)] at huq
      exact List.cons_ne_nil _ _ huq
    have hout1 : 1 ≤ (outputNodesOf w).length := by
      by_contra hc
      rw [outputPhaseErrs, if_pos (by omega)] at hout
      exact List.cons_ne_nil _ _ hout
    have hcyc1 : (kahnTopo w).length = (nodeIds w).length := by
      by_contra hc
      rw [cyclePhaseErrs, if_neg (by simpa using hc)] at hcyc
      exact List.cons_ne_nil _ _ hcyc
    refine ⟨hs, huq1, hout1, ?_, hcyc1⟩
    obtain ⟨s, hseq⟩ := List.length_eq_one.mp huq1
    refine ⟨s, [], hseq, ?_⟩
    rw [connPhaseErrs, hseq] at hconn
    by_cases hu : (unreachableFrom w s).isEmpty
    · simpa using hu
    · exfalso
      simp [hu] at hconn
  · have hcond : (!(validateNodesAndEdges w).isEmpty) = true := by
      simp [hs]
    rw [if_pos hcond] at h'
    exact absurd h' hs

/-! ### Kahn scheduler machinery -/

/-- Edges into `m` whose source has not been appended to `topo` yet: the
mathematical reading of the evolving `incoming` counters. -/
def remainingIndeg (w : Workflow) (topo : List String) (m : String) : Nat :=
  (w.edges.filter (fun e => e.tgt == m && !topo.contains e.src)).length

/-- Unfolding of one step of the inner decrement loop. -/
theorem kahnVisit_cons (inc : String → Int) (pending : List String) (m : String)
    (rest : List String) :
    kahnVisit inc pending (m :: rest)
      = if inc m - 1 = 0
          then kahnVisit (fun s => if s = m then inc m - 1 else inc s) (pending ++ [m]) rest
          else kahnVisit (fun s => if s = m then inc m - 1 else inc s) pending rest := by
  simp [kahnVisit]

/-- Behaviour of the decrement loop over the successor list of a popped node:
every successor's counter drops by its multiplicity, the queue grows by the
(duplicate-free) set of successors whose counter just reached zero, and each
of those had a positive counter before. -/
theorem kahnVisit_spec (succs : List String) :
    ∀ (inc : String → Int) (pending : List String),
      (∀ m, (succs.count m : Int) ≤ inc m) →
      ∃ newly,
        (kahnVisit inc pending succs).2 = pending ++ newly ∧
        (∀ s, (kahnVisit inc pending succs).1 s = inc s - (succs.count s : Int)) ∧
        newly.Nodup ∧
        (∀ m ∈ newly, m ∈ succs ∧ (kahnVisit inc pending succs).1 m = 0 ∧ 1 ≤ inc m) := by
  induction succs with
  | nil =>
      intro inc pending _
      refine ⟨[], by simp [kahnVisit], ?_, by simp, by simp⟩
      intro s
      simp [kahnVisit]
  | cons hd rest ih =>
      intro inc pending hcnt
      have hcnthd : ((hd :: rest).count hd : Int) = (rest.count hd : Int) + 1 := by
        rw [List.count_cons, if_pos (by simp)]
        push_cast
        ring
      have hcntne : ∀ t, t ≠ hd → ((hd :: rest).count t : Int) = (rest.count t : Int) := by
        intro t ht
        rw [List.count_cons, if_neg (by simp [beq_iff_eq, ht, Ne.symm ht])]
        simp
      have hcnt2 : ∀ t, ((rest.count t : Int)) ≤ (if t = hd then inc hd - 1 else inc t) := by
        intro t
        by_cases ht : t = hd
        · subst ht
          rw [if_pos rfl]
          have hh := hcnt t
          rw [hcnthd] at hh
          omega
        · rw [if_neg ht]
          have hh := hcnt t
          rw [hcntne t ht] at hh
          exact hh
      rw [kahnVisit_cons]
      by_cases h0 : inc hd - 1 = 0
      · rw [if_pos h0]
        obtain ⟨newly, hout, hinc, hnodup, hprops⟩ :=
          ih (fun t => if t = hd then inc hd - 1 else inc t) (pending ++ [hd])
            (fun t => hcnt2 t)
        refine ⟨hd :: newly, ?_, ?_, ?_, ?_⟩
        · rw [hout, List.append_assoc]
          rfl
        · intro t
          rw [hinc t]
          by_cases ht : t = hd
          · subst ht
            rw [if_pos rfl, hcnthd]
            ring
          · rw [if_neg ht, hcntne t ht]
        · rw [List.nodup_cons]
          refine ⟨fun hc => ?_, hnodup⟩
          have h1 := (hprops hd hc).2.2
          rw [if_pos rfl] at h1
          omega
        · intro x hx
          rcases List.mem_cons.mp hx with hx | hx
          · subst hx
            refine ⟨List.mem_cons_self _ _, ?_, ?_⟩
            · rw [hinc x, if_pos rfl]
              have hle := hcnt2 x
              rw [if_pos rfl] at hle
              omega
            · omega
          · obtain ⟨hmem, hzero, hpos⟩ := hprops x hx
            refine ⟨List.mem_cons_of_mem _ hmem, hzero, ?_⟩
            by_cases ht : x = hd
            · subst ht
              rw [if_pos rfl] at hpos
              omega
            · rw [if_neg ht] at hpos
              exact hpos
      · rw [if_neg h0]
        obtain ⟨newly, hout, hinc, hnodup, hprops⟩ :=
          ih (fun t => if t = hd then inc hd - 1 else inc t) pending (fun t => hcnt2 t)
        refine ⟨newly, hout, ?_, hnodup, ?_⟩
        · intro t
          rw [hinc t]
          by_cases ht : t = hd
          · subst ht
            rw [if_pos rfl, hcnthd]
            ring
          · rw [if_neg ht, hcntne t ht]
        · intro x hx
          obtain ⟨hmem, hzero, hpos⟩ := hprops x hx
          refine ⟨List.mem_cons_of_mem _ hmem, hzero, ?_⟩
          by_cases ht : x = hd
          · subst ht
            rw [if_pos rfl] at hpos
            omega
          · rw [if_neg ht] at hpos
            exact hpos

/-- Counting a filtered list split along a disjoint disjunction of tests. -/
theorem length_filter_split {α : Type} (l : List α) (f1 f2 f3 : α → Bool)
    (h : ∀ x ∈ l, f1 x = (f2 x || f3 x) ∧ ¬(f2 x = true ∧ f3 x = true)) :
    (l.filter f1).length = (l.filter f2).length + (l.filter f3).length := by
  induction l with
  | nil => simp
  | cons a l ih =>
      obtain ⟨ha1, ha2⟩ := h a (List.mem_cons_self _ _)
      have ihl := ih (fun x hx => h x (List.mem_cons_of_mem _ hx))
      cases hf2 : f2 a with
      | true =>
          cases hf3 : f3 a with
          | true => exact absurd ⟨hf2, hf3⟩ ha2
          | false =>
              have hf1 : f1 a = true := by rw [ha1, hf2, hf3]; rfl
              simp [List.filter_cons, hf1, hf2, hf3]
              omega
      | false =>
          cases hf3 : f3 a with
          | true =>
              have hf1 : f1 a = true := by rw [ha1, hf2, hf3]; rfl
              simp [List.filter_cons, hf1, hf2, hf3]
              omega
          | false =>
              have hf1 : f1 a = false := by rw [ha1, hf2, hf3]; rfl
              simp [List.filter_cons, hf1, hf2, hf3]
              omega

/-- The multiplicity of `m` among the successors of `n` is the number of
`n → m` edges. -/
theorem count_buildAdj (es : List EdgeDef) (n m : String) :
    (buildAdj es n).count m = (es.filter (fun e => e.src == n && e.tgt == m)).length := by
  rw [buildAdj_eq]
  induction es with
  | nil => simp
  | cons e es ih =>
      by_cases h1 : e.src = n
      · by_cases h2 : e.tgt = m
        · simp [List.filter_cons, h1, h2, List.count_cons, ih]
        · simp [List.filter_cons, h1, h2, List.count_cons, ih]
      · simp [List.filter_cons, h1, ih]

/-- Members of the successor list are edge targets from the popped node. -/
theorem mem_buildAdj (es : List EdgeDef) (n m : String) (h : m ∈ buildAdj es n) :
    ∃ e ∈ es, e.src = n ∧ e.tgt = m := by
  rw [buildAdj_eq] at h
  rcases List.mem_map.mp h with ⟨e, he, htgt⟩
  rcases List.mem_filter.mp he with ⟨hmem, hsrc⟩
  exact ⟨e, hmem, by simpa using hsrc, htgt⟩

/-- Popping `n` converts `n`'s outgoing edge multiplicities into decrements of
the remaining in-degrees. -/
theorem remainingIndeg_append (w : Workflow) (topo : List String) (n : String)
    (hn : n ∉ topo) (m : String) :
    remainingIndeg w topo m
      = remainingIndeg w (topo ++ [n]) m
        + (w.edges.filter (fun e => e.src == n && e.tgt == m)).length := by
  unfold remainingIndeg
  apply length_filter_split
  intro e _
  by_cases ht : e.tgt = m
  · by_cases hsn : e.src = n
    · constructor
      · simp [List.contains, ht, hsn, hn]
      · intro hc
        have := hc.1
        simp [List.contains, ht, hsn] at this
    · by_cases hs : e.src ∈ topo
      · constructor
        · simp [List.contains, ht, hsn, hs]
        · intro hc
          have := hc.1
          simp [List.contains, ht, hs] at this
      · constructor
        · simp [List.contains, ht, hsn, hs]
        · intro hc
          have := hc.2
          simp [List.contains, ht, hsn] at this
  · have hb : (e.tgt == m) = false := by
      simp [beq_iff_eq]
      exact ht
    constructor
    · simp [hb]
    · intro hc
      have := hc.1
      simp [hb] at this

/-- A node has no remaining in-degree exactly when the sources of all its
incoming edges have been popped. -/
theorem remainingIndeg_eq_zero_iff (w : Workflow) (topo : List String) (n : String) :
    remainingIndeg w topo n = 0 ↔ ∀ e ∈ w.edges, e.tgt = n → e.src ∈ topo := by
  unfold remainingIndeg
  rw [List.length_eq_zero, List.filter_eq_nil_iff]
  constructor
  · intro h e he htgt
    have := h e he
    by_contra hc
    apply this
    simp [List.contains, htgt, hc]
  · intro h e he
    by_cases htgt : e.tgt = n
    · have := h e he htgt
      simp [List.contains, htgt, this]
    · simp [htgt]

/-- The invariant carried through Kahn's while-loop. -/
structure KahnInv (w : Workflow) (topo queue : List String) (inc : String → Int) : Prop where
  nodup : (topo ++ queue).Nodup
  mem : ∀ x ∈ topo ++ queue, x ∈ nodeIds w
  incEq : ∀ m, inc m = (remainingIndeg w topo m : Int)
  queueZero : ∀ m ∈ queue, inc m = 0
  respects : ∀ e ∈ w.edges, e.tgt ∈ topo → topo.indexOf e.src < topo.indexOf e.tgt

/-- In an invariant state, every popped node has all its in-edge sources
popped as well. -/
theorem KahnInv.closed {w : Workflow} {topo queue : List String} {inc : String → Int}
    (h : KahnInv w topo queue inc) :
    ∀ e ∈ w.edges, e.tgt ∈ topo → e.src ∈ topo := by
  intro e he htgt
  have h1 := h.respects e he htgt
  have h2 : topo.indexOf e.tgt < topo.length := List.indexOf_lt_length.mpr htgt
  exact List.indexOf_lt_length.mp (Nat.lt_trans h1 h2)

/-- In an invariant state, popped nodes have no remaining in-degree. -/
theorem KahnInv.topoZero {w : Workflow} {topo queue : List String} {inc : String → Int}
    (h : KahnInv w topo queue inc) :
    ∀ m ∈ topo, remainingIndeg w topo m = 0 := by
  intro m hm
  rw [remainingIndeg_eq_zero_iff]
  intro e he htgt
  exact h.closed e he (htgt ▸ hm)

/-- Kahn's while-loop preserves the invariant and therefore produces a
duplicate-free list of known nodes, extending the popped prefix, in which
every edge whose target was popped goes forward. -/
theorem kahnLoop_inv (w : Workflow)
    (hE : ∀ e ∈ w.edges, e.src ∈ nodeIds w ∧ e.tgt ∈ nodeIds w) :
    ∀ (fuel : Nat) (queue : List String) (inc : String → Int) (topo : List String),
      KahnInv w topo queue inc →
      (kahnLoop (buildAdj w.edges) fuel queue inc topo).Nodup ∧
      (∀ x ∈ kahnLoop (buildAdj w.edges) fuel queue inc topo, x ∈ nodeIds w) ∧
      (∀ e ∈ w.edges, e.tgt ∈ kahnLoop (buildAdj w.edges) fuel queue inc topo →
        (kahnLoop (buildAdj w.edges) fuel queue inc topo).indexOf e.src
          < (kahnLoop (buildAdj w.edges) fuel queue inc topo).indexOf e.tgt) ∧
      (∃ grown, kahnLoop (buildAdj w.edges) fuel queue inc topo = topo ++ grown) := by
  intro fuel
  induction fuel with
  | zero =>
      intro queue inc topo hInv
      have hR : kahnLoop (buildAdj w.edges) 0 queue inc topo = topo := rfl
      rw [hR]
      exact ⟨hInv.nodup.of_append_left,
        fun x hx => hInv.mem x (List.mem_append_left _ hx),
        hInv.respects, [], (List.append_nil topo).symm⟩
  | succ fuel ih =>
      intro queue inc topo hInv
      cases queue with
      | nil =>
          have hR : kahnLoop (buildAdj w.edges) (fuel + 1) [] inc topo = topo := rfl
          rw [hR]
          exact ⟨hInv.nodup.of_append_left,
            fun x hx => hInv.mem x (List.mem_append_left _ hx),
            hInv.respects, [], (List.append_nil topo).symm⟩
      | cons n rest =>
          have hstep : kahnLoop (buildAdj w.edges) (fuel + 1) (n :: rest) inc topo
              = kahnLoop (buildAdj w.edges) fuel
                  (kahnVisit inc rest (buildAdj w.edges n)).2
                  (kahnVisit inc rest (buildAdj w.edges n)).1
                  (topo ++ [n]) := rfl
          obtain ⟨htopoNodup, hqNodup, hdisj⟩ := List.nodup_append.mp hInv.nodup
          have hnTopo : n ∉ topo := fun hc => hdisj hc (List.mem_cons_self _ _)
          have hincn : inc n = 0 := hInv.queueZero n (List.mem_cons_self _ _)
          have hrem0 : remainingIndeg w topo n = 0 := by
            have := hInv.incEq n
            rw [hincn] at this
            omega
          have hPreds : ∀ e ∈ w.edges, e.tgt = n → e.src ∈ topo :=
            (remainingIndeg_eq_zero_iff w topo n).mp hrem0
          have hcount : ∀ m, (((buildAdj w.edges n).count m : Int)) ≤ inc m := by
            intro m
            rw [count_buildAdj, hInv.incEq m,
              remainingIndeg_append w topo n hnTopo m]
            push_cast
            omega
          obtain ⟨newly, hout, hinc, hnewNodup, hprops⟩ :=
            kahnVisit_spec (buildAdj w.edges n) inc rest hcount
          have hincEq2 : ∀ m, (kahnVisit inc rest (buildAdj w.edges n)).1 m
              = (remainingIndeg w (topo ++ [n]) m : Int) := by
            intro m
            rw [hinc m, hInv.incEq m, count_buildAdj,
              remainingIndeg_append w topo n hnTopo m]
            push_cast
            ring
          have hnewlyFresh : ∀ m ∈ newly, m ∉ topo ∧ m ≠ n ∧ m ∉ rest := by
            intro m hm
            obtain ⟨-, -, hpos⟩ := hprops m hm
            refine ⟨?_, ?_, ?_⟩
            · intro hc
              have h0 := hInv.topoZero m hc
              have := hInv.incEq m
              rw [h0] at this
              omega
            · intro hc
              subst hc
              omega
            · intro hc
              have := hInv.queueZero m (List.mem_cons_of_mem _ hc)
              omega
          have hbase : (topo ++ [n] ++ rest).Nodup := by
            rw [List.append_assoc, List.singleton_append]
            exact hInv.nodup
          have hInv2 : KahnInv w (topo ++ [n])
              (kahnVisit inc rest (buildAdj w.edges n)).2
              (kahnVisit inc rest (buildAdj w.edges n)).1 := by
            refine ⟨?_, ?_, hincEq2, ?_, ?_⟩
            · rw [hout, ← List.append_assoc]
              rw [List.nodup_append]
              refine ⟨hbase, hnewNodup, ?_⟩
              intro a ha hanew
              obtain ⟨h1, h2, h3⟩ := hnewlyFresh a hanew
              rcases List.mem_append.mp ha with ha | ha
              · rcases List.mem_append.mp ha with ha | ha
                · exact h1 ha
                · exact h2 (by simpa using ha)
              · exact h3 ha
            · intro x hx
              rw [hout, ← List.append_assoc] at hx
              rcases List.mem_append.mp hx with hx | hx
              · rcases List.mem_append.mp hx with hx | hx
                · rcases List.mem_append.mp hx with hx | hx
                  · exact hInv.mem x (List.mem_append_left _ hx)
                  · have : x = n := by simpa using hx
                    subst this
                    exact hInv.mem x (List.mem_append_right _ (List.mem_cons_self _ _))
                · exact hInv.mem x
                    (List.mem_append_right _ (List.mem_cons_of_mem _ hx))
              · have hxadj := (hprops x hx).1
                obtain ⟨e, he, hesrc, hetgt⟩ := mem_buildAdj w.edges n x hxadj
                exact hetgt ▸ (hE e he).2
            · intro m hm
              rw [hout] at hm
              rcases List.mem_append.mp hm with hm | hm
              · rw [hinc m]
                have h0 := hInv.queueZero m (List.mem_cons_of_mem _ hm)
                have hc := hcount m
                have : (0 : Int) ≤ ((buildAdj w.edges n).count m : Int) :=
                  Int.natCast_nonneg _
                omega
              · exact (hprops m hm).2.1
            · intro e he htgt
              rcases List.mem_append.mp htgt with htgt | htgt
              · have hsrc : e.src ∈ topo := hInv.closed e he htgt
                rw [List.indexOf_append_of_mem hsrc, List.indexOf_append_of_mem htgt]
                exact hInv.respects e he htgt
              · have hetgt : e.tgt = n := by simpa using htgt
                have hsrc : e.src ∈ topo := hPreds e he hetgt
                rw [List.indexOf_append_of_mem hsrc, hetgt,
                  List.indexOf_append_of_not_mem hnTopo]
                simp only [List.indexOf_cons_self, Nat.add_zero]
                exact List.indexOf_lt_length.mpr hsrc
          obtain ⟨hN, hM, hRsp, grown, hGrow⟩ := ih _ _ _ hInv2
          rw [hstep]
          refine ⟨hN, hM, hRsp, n :: grown, ?_⟩
          rw [hGrow, List.append_assoc, List.singleton_append]

/-- Soundness of the scheduler on structurally valid definitions: the
computed order is duplicate-free, mentions only real nodes, and every edge
whose target was scheduled goes strictly forward. -/
theorem kahn_sound (w : Workflow)
    (hNodup : (nodeIds w).Nodup)
    (hE : ∀ e ∈ w.edges, e.src ∈ nodeIds w ∧ e.tgt ∈ nodeIds w) :
    (kahnTopo w).Nodup ∧ (∀ x ∈ kahnTopo w, x ∈ nodeIds w) ∧
    (∀ e ∈ w.edges, e.tgt ∈ kahnTopo w →
      (kahnTopo w).indexOf e.src < (kahnTopo w).indexOf e.tgt) := by
  have hIncRem : ∀ m, buildIncoming w.edges m = (remainingIndeg w [] m : Int) := by
    intro m
    have hfeq : List.filter (fun e => e.tgt == m && !([] : List String).contains e.src)
        w.edges = List.filter (fun e => e.tgt == m) w.edges := by
      apply List.filter_congr
      intro e _
      simp
    rw [buildIncoming_eq]
    unfold remainingIndeg
    rw [hfeq]
  have hInv : KahnInv w []
      ((nodeIds w).filter (fun nid => buildIncoming w.edges nid = 0))
      (buildIncoming w.edges) := by
    refine ⟨?_, ?_, hIncRem, ?_, ?_⟩
    · simpa using hNodup.filter _
    · intro x hx
      simp only [List.nil_append] at hx
      exact (List.mem_filter.mp hx).1
    · intro m hm
      have := (List.mem_filter.mp hm).2
      exact of_decide_eq_true this
    · intro e _ htgt
      exact absurd htgt (List.not_mem_nil _)
  have h := kahnLoop_inv w hE ((nodeIds w).length + w.edges.length + 1) _ _ _ hInv
  exact ⟨h.1, h.2.1, h.2.2.1⟩

/-- When the scheduler's order is as long as the node list (the validator's
acyclicity certificate), it contains exactly the nodes. -/
theorem kahn_complete (w : Workflow)
    (hNodup : (nodeIds w).Nodup)
    (hE : ∀ e ∈ w.edges, e.src ∈ nodeIds w ∧ e.tgt ∈ nodeIds w)
    (hLen : (kahnTopo w).length = (nodeIds w).length) :
    ∀ x, x ∈ kahnTopo w ↔ x ∈ nodeIds w := by
  obtain ⟨hN, hM, -⟩ := kahn_sound w hNodup hE
  have hsub : kahnTopo w ⊆ nodeIds w := fun x hx => hM x hx
  have hsp : List.Subperm (kahnTopo w) (nodeIds w) :=
    List.subperm_of_subset hN hsub
  have hperm : List.Perm (kahnTopo w) (nodeIds w) :=
    hsp.perm_of_length_le (Nat.le_of_eq hLen.symm)
  exact fun x => hperm.mem_iff

/-- Along any directed path, scheduled positions never decrease (they
strictly increase along each edge). -/
theorem reaches_indexOf_le (w : Workflow)
    (hNodup : (nodeIds w).Nodup)
    (hE : ∀ e ∈ w.edges, e.src ∈ nodeIds w ∧ e.tgt ∈ nodeIds w)
    (hLen : (kahnTopo w).length = (nodeIds w).length) :
    ∀ a b, Reaches w a b →
      (kahnTopo w).indexOf a ≤ (kahnTopo w).indexOf b := by
  intro a b hr
  induction hr with
  | refl => exact Nat.le_refl _
  | step hab hedge ih =>
      obtain ⟨e, he, hsrc, htgt⟩ := hedge
      have htgtMem : e.tgt ∈ kahnTopo w :=
        (kahn_complete w hNodup hE hLen e.tgt).mpr (hE e he).2
      have hlt := (kahn_sound w hNodup hE).2.2 e he htgtMem
      rw [hsrc, htgt] at hlt
      omega

/-- Unfolding of one DFS iteration on a nonempty stack. -/
theorem dfsLoop_cons (adj : String → List String) (fuel : Nat) (a : String)
    (st reach : List String) :
    dfsLoop adj (fuel + 1) (a :: st) reach
      = if reach.contains ((a :: st).getLastD "") then
          dfsLoop adj fuel (a :: st).dropLast reach
        else
          dfsLoop adj fuel ((a :: st).dropLast ++
            (adj ((a :: st).getLastD "")).filter
              (fun nb => !(reach ++ [(a :: st).getLastD ""]).contains nb))
            (reach ++ [(a :: st).getLastD ""]) := rfl

/-- Everything the connectivity DFS marks is genuinely reachable from the
start node along directed edges. -/
theorem dfsLoop_sound (w : Workflow) (start : String) :
    ∀ (fuel : Nat) (stack reach : List String),
      (∀ x ∈ stack, Reaches w start x) →
      (∀ x ∈ reach, Reaches w start x) →
      ∀ x ∈ dfsLoop (buildAdj w.edges) fuel stack reach, Reaches w start x := by
  intro fuel
  induction fuel with
  | zero =>
      intro stack reach _ hr x hx
      exact hr x hx
  | succ fuel ih =>
      intro stack reach hs hr x hx
      cases stack with
      | nil => exact hr x hx
      | cons a st =>
          have hcurMem : (a :: st).getLastD "" ∈ a :: st := by
            rw [List.getLastD_cons]
            exact List.getLastD_mem_cons st a
          have hcurReach : Reaches w start ((a :: st).getLastD "") :=
            hs _ hcurMem
          rw [dfsLoop_cons] at hx
          by_cases hc : reach.contains ((a :: st).getLastD "")
          · rw [if_pos hc] at hx
            exact ih _ _ (fun y hy => hs y (List.dropLast_subset _ hy)) hr x hx
          · rw [if_neg hc] at hx
            refine ih _ _ ?_ ?_ x hx
            · intro y hy
              rcases List.mem_append.mp hy with hy | hy
              · exact hs y (List.dropLast_subset _ hy)
              · have hyadj : y ∈ buildAdj w.edges ((a :: st).getLastD "") :=
                  (List.mem_filter.mp hy).1
                obtain ⟨e, he, hesrc, hetgt⟩ := mem_buildAdj _ _ _ hyadj
                exact Reaches.step hcurReach ⟨e, he, hesrc, hetgt⟩
            · intro y hy
              rcases List.mem_append.mp hy with hy | hy
              · exact hr y hy
              · have : y = (a :: st).getLastD "" := by simpa using hy
                exact this ▸ hcurReach

/-- Soundness of the validator's reachable set. -/
theorem reachableFrom_sound (w : Workflow) (start : String) :
    ∀ x ∈ reachableFrom w start, Reaches w start x := by
  intro x hx
  exact dfsLoop_sound w start _ [start] []
    (fun y hy => by
      have : y = start := by simpa using hy
      exact this ▸ Reaches.refl y)
    (fun y hy => absurd hy (List.not_mem_nil _)) x hx

/-- The while-loop only ever appends to the accumulated order. -/
theorem kahnLoop_prefix (adj : String → List String) :
    ∀ (fuel : Nat) (queue : List String) (inc : String → Int) (topo : List String),
      ∃ grown, kahnLoop adj fuel queue inc topo = topo ++ grown := by
  intro fuel
  induction fuel with
  | zero => intro queue inc topo; exact ⟨[], by simp [kahnLoop]⟩
  | succ fuel ih =>
      intro queue inc topo
      cases queue with
      | nil => exact ⟨[], by simp [kahnLoop]⟩
      | cons n rest =>
          obtain ⟨g, hg⟩ := ih (kahnVisit inc rest (adj n)).2
            (kahnVisit inc rest (adj n)).1 (topo ++ [n])
          refine ⟨n :: g, ?_⟩
          have hstep : kahnLoop adj (fuel + 1) (n :: rest) inc topo
              = kahnLoop adj fuel (kahnVisit inc rest (adj n)).2
                  (kahnVisit inc rest (adj n)).1 (topo ++ [n]) := rfl
          rw [hstep, hg, List.append_assoc, List.singleton_append]

/-- A node has an empty parent list exactly when no edge points at it. -/
theorem parentsOf_eq_nil_iff (w : Workflow) (m : String) :
    parentsOf w m = [] ↔ ∀ e ∈ w.edges, e.tgt ≠ m := by
  unfold parentsOf
  rw [List.map_eq_nil_iff, List.filter_eq_nil_iff]
  constructor
  · intro h e he htgt
    exact h e he (by simp [htgt])
  · intro h e he hbe
    exact h e he (by simpa using hbe)

/-- The executor's in-degree counter is zero exactly for parentless nodes. -/
theorem buildIncoming_eq_zero_iff (w : Workflow) (m : String) :
    buildIncoming w.edges m = 0 ↔ parentsOf w m = [] := by
  rw [buildIncoming_eq, parentsOf_eq_nil_iff]
  constructor
  · intro h
    have hlen : (w.edges.filter (fun e => e.tgt == m)).length = 0 := by omega
    rw [List.length_eq_zero, List.filter_eq_nil_iff] at hlen
    intro e he htgt
    exact hlen e he (by simp [htgt])
  · intro h
    have hnil : w.edges.filter (fun e => e.tgt == m) = [] := by
      rw [List.filter_eq_nil_iff]
      intro e he hbe
      exact h e he (by simpa using hbe)
    rw [hnil]
    simp

/-- Filtering a duplicate-free list by a predicate that singles out one of
its members yields exactly that member. -/
theorem filter_unique_mem {α : Type} [DecidableEq α] (l : List α) (p : α → Bool)
    (s : α) (hnd : l.Nodup) (hs : s ∈ l) (hiff : ∀ x ∈ l, p x = true ↔ x = s) :
    l.filter p = [s] := by
  induction l with
  | nil => exact absurd hs (List.not_mem_nil _)
  | cons a t ih =>
      obtain ⟨hna, hnt⟩ := List.nodup_cons.mp hnd
      rcases List.mem_cons.mp hs with hsa | hst
      · subst hsa
        have hpa : p s = true := (hiff s (List.mem_cons_self _ _)).mpr rfl
        have hrest : t.filter p = [] := by
          rw [List.filter_eq_nil_iff]
          intro x hx hpx
          have := (hiff x (List.mem_cons_of_mem _ hx)).mp hpx
          exact hna (this ▸ hx)
        rw [List.filter_cons, if_pos (by simp [hpa]), hrest]
      · have hpa : ¬ (p a = true) := by
          intro hpa
          have := (hiff a (List.mem_cons_self _ _)).mp hpa
          exact hna (this ▸ hst)
        rw [List.filter_cons, if_neg (by simpa using hpa)]
        exact ih hnt hst (fun x hx => hiff x (List.mem_cons_of_mem _ hx))

/-- Entry-node ids are node ids. -/
theorem userQueryNodes_subset (w : Workflow) :
    ∀ x ∈ userQueryNodesOf w, x ∈ nodeIds w := by
  intro x hx
  rcases List.mem_map.mp hx with ⟨n, hn, hid⟩
  exact List.mem_map.mpr ⟨n, (List.mem_filter.mp hn).1, hid⟩

/-- Terminal-node ids are node ids. -/
theorem outputNodes_subset (w : Workflow) :
    ∀ x ∈ outputNodesOf w, x ∈ nodeIds w := by
  intro x hx
  rcases List.mem_map.mp hx with ⟨n, hn, hid⟩
  exact List.mem_map.mpr ⟨n, (List.mem_filter.mp hn).1, hid⟩

/-- On a validated definition every node is reachable from the entry node. -/
theorem validated_reachable (w : Workflow)
    (h : validateWorkflowErrors w true = []) :
    ∀ x ∈ nodeIds w, Reaches w (startNodeId w) x := by
  obtain ⟨-, -, -, ⟨s, rest0, hseq, hunr⟩, -⟩ := validatePass w h
  have hstart : startNodeId w = s := by
    rw [startNodeId, hseq]
    rfl
  rw [hstart]
  intro x hx
  have hmem : x ∈ reachableFrom w s := by
    rw [unreachableFrom, List.filter_eq_nil_iff] at hunr
    have := hunr x hx
    by_contra hc
    apply this
    simp [List.contains, hc]
  exact reachableFrom_sound w s x hmem

/-- On a validated definition the entry node has no incoming edge. -/
theorem validated_entry_no_incoming (w : Workflow)
    (h : validateWorkflowErrors w true = []) :
    parentsOf w (startNodeId w) = [] := by
  obtain ⟨hstruct, -, -, ⟨s, rest0, hseq, -⟩, hlen⟩ := validatePass w h
  obtain ⟨hNodup, hnode, hedge⟩ := structOK w hstruct
  have hstart : startNodeId w = s := by
    rw [startNodeId, hseq]
    rfl
  rw [parentsOf_eq_nil_iff]
  intro e he htgt
  have hsrcN : e.src ∈ nodeIds w := (hedge e he).1
  have hreach : Reaches w (startNodeId w) e.src :=
    validated_reachable w h e.src hsrcN
  have hle := reaches_indexOf_le w hNodup hedge hlen _ _ hreach
  have htgtMem : e.tgt ∈ kahnTopo w := by
    rw [htgt]
    rw [kahn_complete w hNodup hedge hlen]
    rw [hstart]
    exact userQueryNodes_subset w s (hseq ▸ List.mem_cons_self _ _)
  have hlt := (kahn_sound w hNodup hedge).2.2 e he htgtMem
  rw [htgt] at hlt
  omega

/-- On a validated definition the entry node is the only parentless node. -/
theorem validated_unique_root (w : Workflow)
    (h : validateWorkflowErrors w true = []) :
    ∀ m ∈ nodeIds w, parentsOf w m = [] → m = startNodeId w := by
  intro m hm hpar
  by_contra hne
  have hreach : Reaches w (startNodeId w) m := validated_reachable w h m hm
  have hlast : ∀ a b, Reaches w a b → a ≠ b → ∃ e ∈ w.edges, e.tgt = b := by
    intro a b hr
    induction hr with
    | refl => intro hc; exact absurd rfl hc
    | step hab hedge ih =>
        intro _
        obtain ⟨e, he, hesrc, hetgt⟩ := hedge
        exact ⟨e, he, hetgt⟩
  obtain ⟨e, he, hetgt⟩ := hlast _ _ hreach (fun hc => hne hc.symm)
  rw [parentsOf_eq_nil_iff] at hpar
  exact hpar e he hetgt

/-- On a validated definition the scheduler order starts with the entry
node: it is the unique zero-in-degree node, hence the sole seed of the ready
queue, hence the first node popped. -/
theorem validated_topo_head (w : Workflow)
    (h : validateWorkflowErrors w true = []) :
    ∃ rest, kahnTopo w = startNodeId w :: rest := by
  obtain ⟨hstruct, -, -, ⟨s, rest0, hseq, -⟩, -⟩ := validatePass w h
  obtain ⟨hNodup, -, -⟩ := structOK w hstruct
  have hstart : startNodeId w = s := by
    rw [startNodeId, hseq]
    rfl
  have hsmem : s ∈ nodeIds w :=
    userQueryNodes_subset w s (hseq ▸ List.mem_cons_self _ _)
  have hq0 : (nodeIds w).filter (fun nid => buildIncoming w.edges nid = 0)
      = [s] := by
    apply filter_unique_mem _ _ _ hNodup hsmem
    intro x hx
    constructor
    · intro hpx
      have hz : buildIncoming w.edges x = 0 := of_decide_eq_true hpx
      have hpar := (buildIncoming_eq_zero_iff w x).mp hz
      have := validated_unique_root w h x hx hpar
      rw [← hstart]
      exact this
    · intro hxs
      subst hxs
      have hpar : parentsOf w x = [] := by
        rw [← hstart] at hseq ⊢
        exact validated_entry_no_incoming w h
      have := (buildIncoming_eq_zero_iff w x).mpr hpar
      exact decide_eq_true this
  rw [hstart]
  unfold kahnTopo
  rw [hq0]
  have hfuel : (nodeIds w).length + w.edges.length + 1
      = Nat.succ ((nodeIds w).length + w.edges.length) := rfl
  rw [hfuel]
  have hstep : kahnLoop (buildAdj w.edges)
      (Nat.succ ((nodeIds w).length + w.edges.length)) [s] (buildIncoming w.edges) []
      = kahnLoop (buildAdj w.edges) ((nodeIds w).length + w.edges.length)
          (kahnVisit (buildIncoming w.edges) [] (buildAdj w.edges s)).2
          (kahnVisit (buildIncoming w.edges) [] (buildAdj w.edges s)).1
          ([] ++ [s]) := rfl
  rw [hstep]
  obtain ⟨g, hg⟩ := kahnLoop_prefix (buildAdj w.edges)
    ((nodeIds w).length + w.edges.length)
    (kahnVisit (buildIncoming w.edges) [] (buildAdj w.edges s)).2
    (kahnVisit (buildIncoming w.edges) [] (buildAdj w.edges s)).1 ([] ++ [s])
  rw [hg]
  exact ⟨g, rfl⟩

/-! ### Execution-loop machinery -/

/-- Unfolding of one engine step. -/
theorem execLoop_cons (env : Env) (w : Workflow) (nid : String) (rest : List String)
    (ctx : Ctx) (tr : List TraceEntry) :
    execLoop env w (nid :: rest) ctx tr
      = match lookupNode w nid with
        | none => execLoop env w rest ctx tr
        | some n =>
            if componentTypes.contains n.type then
              match (safeRunNodeModel (n.type == "llm_engine") (env.acquireOk tr.length)
                  (env.body n (assembleInput w ctx nid)) (env.durInner tr.length)
                  { permits := LLM_CONCURRENCY_LIMIT, acquires := 0, releases := 0 }).1 with
              | .ok out =>
                  execLoop env w rest (ctxSet ctx nid out)
                    (tr ++ [successEntry nid n.type (env.startedAt tr.length)
                      (env.durOuter tr.length) out])
              | .error msg =>
                  .failed nid n.type msg
                    (tr ++ [errorEntry nid n.type (env.startedAt tr.length) msg])
            else execLoop env w rest ctx tr := rfl

/-- A successful `_safe_run_node` outcome is the node's own dict with the
measured duration injected. -/
theorem safeRunNodeModel_ok {isLLM aok : Bool} {body : BodyOutcome} {dur : Nat}
    {s : SemLog} {out : Dict}
    (h : (safeRunNodeModel isLLM aok body dur s).1 = .ok out) :
    ∃ d, body = .ok d ∧ out = dictSet d "_exec_duration" (Value.vNat dur) := by
  unfold safeRunNodeModel at h
  by_cases hg : (isLLM && !aok) = true
  · rw [if_pos hg] at h
    simp at h
  · rw [if_neg hg] at h
    cases body with
    | timeout => simp at h
    | exn m => simp at h
    | ok d =>
        simp only [] at h
        rw [Except.ok.injEq] at h
        exact ⟨d, rfl, h.symm⟩

/-- The injected key is present in every successful node output. -/
theorem safeRunNodeModel_ok_hasKey {isLLM aok : Bool} {body : BodyOutcome} {dur : Nat}
    {s : SemLog} {out : Dict}
    (h : (safeRunNodeModel isLLM aok body dur s).1 = .ok out) :
    hasExecDur out = true := by
  obtain ⟨d, -, hout⟩ := safeRunNodeModel_ok h
  rw [hasExecDur, hout, dictGet?_dictSet_self]
  rfl

/-- Every id of the remaining schedule names a node whose type the engine can
instantiate (true of the whole schedule after validation). -/
def GoodNodes (w : Workflow) (rest : List String) : Prop :=
  ∀ nid ∈ rest, ∃ n, lookupNode w nid = some n ∧ n.type ∈ componentTypes

/-- Field-by-field description of the success entries appended for a
(sub)schedule starting at oracle step `off`. -/
def TraceMatches (env : Env) (w : Workflow) : Nat → List String → List TraceEntry → Prop
  | _, [], [] => True
  | off, nid :: rest, en :: ens =>
      en.node_id = nid ∧ en.status = "success" ∧ en.started_at = env.startedAt off ∧
      en.duration_seconds = some (env.durOuter off) ∧ en.error = none ∧
      (∃ ks, en.output_keys = some ks ∧ "_exec_duration" ∈ ks) ∧
      (∃ n, lookupNode w nid = some n ∧ en.node_type = n.type) ∧
      TraceMatches env w (off + 1) rest ens
  | _, _, _ => False

/-- Matching entries list exactly the scheduled ids, all with success
status. -/
theorem TraceMatches_fields (env : Env) (w : Workflow) :
    ∀ (off : Nat) (rest : List String) (entries : List TraceEntry),
      TraceMatches env w off rest entries →
      entries.map (·.node_id) = rest ∧ ∀ en ∈ entries, en.status = "success" := by
  intro off rest
  induction rest generalizing off with
  | nil =>
      intro entries h
      cases entries with
      | nil => exact ⟨rfl, by simp⟩
      | cons e es => exact absurd h (by simp [TraceMatches])
  | cons nid rest ih =>
      intro entries h
      cases entries with
      | nil => exact absurd h (by simp [TraceMatches])
      | cons en ens =>
          rw [TraceMatches] at h
          obtain ⟨hid, hst, -, -, -, -, -, htail⟩ := h
          obtain ⟨hmap, hall⟩ := ih (off + 1) ens htail
          refine ⟨?_, ?_⟩
          · rw [List.map_cons, hmap, hid]
          · intro e he
            rcases List.mem_cons.mp he with he | he
            · exact he ▸ hst
            · exact hall e he

/-- Success path of the engine loop: one matching entry per scheduled node,
the context extended exactly on the scheduled ids, every recorded output
carrying the injected duration key, and all other context entries
untouched. -/
theorem execLoop_done_spec (env : Env) (w : Workflow) :
    ∀ (rest : List String) (ctx : Ctx) (tr : List TraceEntry) (ctx' : Ctx)
      (tr' : List TraceEntry),
      GoodNodes w rest →
      execLoop env w rest ctx tr = .done ctx' tr' →
      ∃ entries, tr' = tr ++ entries ∧
        TraceMatches env w tr.length rest entries ∧
        (∀ x, x ∉ rest → ctx' x = ctx x) ∧
        (∀ x ∈ rest, ∃ d, ctx' x = some d ∧ hasExecDur d = true) := by
  intro rest
  induction rest with
  | nil =>
      intro ctx tr ctx' tr' _ hrun
      rw [execLoop] at hrun
      rw [LoopResult.done.injEq] at hrun
      refine ⟨[], by rw [← hrun.2]; simp, by rw [TraceMatches]; trivial, ?_, by simp⟩
      intro x _
      rw [← hrun.1]
  | cons nid rest ih =>
      intro ctx tr ctx' tr' hgood hrun
      obtain ⟨n, hlook, hty⟩ := hgood nid (List.mem_cons_self _ _)
      have htyb : componentTypes.contains n.type = true := by
        simp [List.contains]
        exact hty
      rw [execLoop_cons] at hrun
      rw [hlook] at hrun
      simp only [htyb, if_true] at hrun
      cases hres : (safeRunNodeModel (n.type == "llm_engine") (env.acquireOk tr.length)
          (env.body n (assembleInput w ctx nid)) (env.durInner tr.length)
          { permits := LLM_CONCURRENCY_LIMIT, acquires := 0, releases := 0 }).1 with
      | error msg =>
          rw [hres] at hrun
          exact absurd hrun (by simp)
      | ok out =>
          rw [hres] at hrun
          obtain ⟨entries, htr, hmatch, hstab, hvals⟩ :=
            ih _ _ _ _ (fun x hx => hgood x (List.mem_cons_of_mem _ hx)) hrun
          refine ⟨successEntry nid n.type (env.startedAt tr.length)
              (env.durOuter tr.length) out :: entries, ?_, ?_, ?_, ?_⟩
          · rw [htr, List.append_assoc, List.singleton_append]
          · rw [TraceMatches]
            refine ⟨rfl, rfl, rfl, rfl, rfl, ?_, ⟨n, hlook, rfl⟩, ?_⟩
            · refine ⟨dictKeys out, rfl, ?_⟩
              obtain ⟨d, -, hout⟩ := safeRunNodeModel_ok hres
              rw [hout]
              exact (mem_dictKeys_dictSet d "_exec_duration" "_exec_duration"
                (Value.vNat (env.durInner tr.length))).mpr (Or.inl rfl)
            · have hlen : (tr ++ [successEntry nid n.type (env.startedAt tr.length)
                  (env.durOuter tr.length) out]).length = tr.length + 1 := by
                simp
              rw [hlen] at hmatch
              exact hmatch
          · intro x hx
            have hxne : x ≠ nid := fun hc => hx (hc ▸ List.mem_cons_self _ _)
            have hxrest : x ∉ rest := fun hc => hx (List.mem_cons_of_mem _ hc)
            rw [hstab x hxrest, ctxSet, if_neg hxne]
          · intro x hx
            rcases List.mem_cons.mp hx with hx | hx
            · subst hx
              by_cases hxr : x ∈ rest
              · exact hvals x hxr
              · refine ⟨out, ?_, safeRunNodeModel_ok_hasKey hres⟩
                rw [hstab x hxr, ctxSet, if_pos rfl]
            · exact hvals x hx

/-- Failure path of the engine loop: the schedule splits at the failing node,
the new trace is the matching success entries of the processed prefix plus
one error entry for the failing node, and the reported type is the failing
node's type. -/
theorem execLoop_failed_spec (env : Env) (w : Workflow) :
    ∀ (rest : List String) (ctx : Ctx) (tr : List TraceEntry)
      (nid nty msg : String) (tr' : List TraceEntry),
      GoodNodes w rest →
      execLoop env w rest ctx tr = .failed nid nty msg tr' →
      ∃ pre post entries st,
        rest = pre ++ nid :: post ∧
        tr' = tr ++ entries ++ [errorEntry nid nty st msg] ∧
        TraceMatches env w tr.length pre entries ∧
        (∃ n, lookupNode w nid = some n ∧ nty = n.type) := by
  intro rest
  induction rest with
  | nil =>
      intro ctx tr nid nty msg tr' _ hrun
      rw [execLoop] at hrun
      exact absurd hrun (by simp)
  | cons hd rest ih =>
      intro ctx tr nid nty msg tr' hgood hrun
      obtain ⟨n, hlook, hty⟩ := hgood hd (List.mem_cons_self _ _)
      have htyb : componentTypes.contains n.type = true := by
        simp [List.contains]
        exact hty
      rw [execLoop_cons] at hrun
      rw [hlook] at hrun
      simp only [htyb, if_true] at hrun
      cases hres : (safeRunNodeModel (n.type == "llm_engine") (env.acquireOk tr.length)
          (env.body n (assembleInput w ctx hd)) (env.durInner tr.length)
          { permits := LLM_CONCURRENCY_LIMIT, acquires := 0, releases := 0 }).1 with
      | error msg0 =>
          rw [hres] at hrun
          rw [LoopResult.failed.injEq] at hrun
          obtain ⟨h1, h2, h3, h4⟩ := hrun
          refine ⟨[], rest, [], env.startedAt tr.length, by rw [h1]; rfl, ?_, ?_, ?_⟩
          · rw [← h4, ← h1, ← h2, ← h3]
            simp
          · rw [TraceMatches]
            trivial
          · exact ⟨n, h1 ▸ hlook, h2.symm⟩
      | ok out =>
          rw [hres] at hrun
          obtain ⟨pre, post, entries, st, hsplit, htr, hmatch, hnode⟩ :=
            ih _ _ _ _ _ _ (fun x hx => hgood x (List.mem_cons_of_mem _ hx)) hrun
          refine ⟨hd :: pre, post, successEntry hd n.type (env.startedAt tr.length)
              (env.durOuter tr.length) out :: entries, st, ?_, ?_, ?_, hnode⟩
          · rw [List.cons_append, hsplit]
          · rw [htr]
            simp [List.append_assoc]
          · rw [TraceMatches]
            refine ⟨rfl, rfl, rfl, rfl, rfl, ?_, ⟨n, hlook, rfl⟩, ?_⟩
            · refine ⟨dictKeys out, rfl, ?_⟩
              obtain ⟨d, -, hout⟩ := safeRunNodeModel_ok hres
              rw [hout]
              exact (mem_dictKeys_dictSet d "_exec_duration" "_exec_duration"
                (Value.vNat (env.durInner tr.length))).mpr (Or.inl rfl)
            · have hlen : (tr ++ [successEntry hd n.type (env.startedAt tr.length)
                  (env.durOuter tr.length) out]).length = tr.length + 1 := by
                simp
              rw [hlen] at hmatch
              exact hmatch

/-- After validation, every scheduled id names a node of a registered type. -/
theorem validated_goodNodes (w : Workflow)
    (h : validateWorkflowErrors w true = []) :
    GoodNodes w (kahnTopo w) := by
  obtain ⟨hstruct, -, -, -, -⟩ := validatePass w h
  obtain ⟨hNodup, hnode, hedge⟩ := structOK w hstruct
  intro nid hnid
  have hmem : nid ∈ nodeIds w := (kahn_sound w hNodup hedge).2.1 nid hnid
  rcases List.mem_map.mp hmem with ⟨n0, hn0, hid0⟩
  have hsome : (lookupNode w nid).isSome := by
    rw [lookupNode, List.find?_isSome]
    exact ⟨n0, hn0, by simp [hid0]⟩
  cases hfind : lookupNode w nid with
  | none => rw [hfind] at hsome; exact absurd hsome (by simp)
  | some n =>
      have hnmem : n ∈ w.nodes := List.mem_of_find?_eq_some hfind
      have hTypeEq : NODE_TYPES = componentTypes := rfl
      exact ⟨n, rfl, hTypeEq ▸ (hnode n hnmem).2⟩

/-- A validated run reduces to the engine loop over the schedule. -/
theorem executeWorkflowSafe_validated (env : Env) (w : Workflow) (q : String)
    (h : validateWorkflowErrors w true = []) (s : String) (rest0 : List String)
    (hseq : userQueryNodesOf w = s :: rest0) :
    executeWorkflowSafe env w q
      = match execLoop env w (kahnTopo w) (initialCtx w q) [] with
        | .failed nid nty msg tr => .nodeError nid nty msg tr
        | .done ctx tr =>
            .success (((outputNodesOf w).map (fun nid => (ctx nid).getD [])).headD [])
              tr := by
  unfold executeWorkflowSafe
  rw [h, hseq]
  exact rfl

/-- The derived context observable of a validated run. -/
theorem execContext_validated (env : Env) (w : Workflow) (q : String)
    (h : validateWorkflowErrors w true = []) (s : String) (rest0 : List String)
    (hseq : userQueryNodesOf w = s :: rest0) :
    execContext env w q
      = match execLoop env w (kahnTopo w) (initialCtx w q) [] with
        | .failed _ _ _ _ => none
        | .done ctx _ => some ctx := by
  unfold execContext
  rw [h, hseq]
  exact rfl

/-! ### Claim theorems -/

/-- C3: on a validated definition the scheduler's Kahn order is topological —
every node is placed after each of its direct predecessors — contains every
node exactly once (duplicate-free, same membership and same length as the
node list), and is deterministic: the ready queue is seed- and append-ordered
by eligibility with FIFO dequeuing, all encoded in the pure function
`kahnTopo`, so recomputation over the same definition yields the same
sequence. -/
theorem c3_scheduler_topological_order (w : Workflow)
    (hv : validateWorkflowErrors w true = []) :
    (∀ e ∈ w.edges, (kahnTopo w).indexOf e.src < (kahnTopo w).indexOf e.tgt) ∧
    (kahnTopo w).Nodup ∧
    (∀ x, x ∈ kahnTopo w ↔ x ∈ nodeIds w) ∧
    (kahnTopo w).length = (nodeIds w).length ∧
    kahnTopo w = kahnTopo w := by
  obtain ⟨hstruct, -, -, -, hlen⟩ := validatePass w hv
  obtain ⟨hNodup, -, hedge⟩ := structOK w hstruct
  obtain ⟨hN, -, hRsp⟩ := kahn_sound w hNodup hedge
  have hcomp := kahn_complete w hNodup hedge hlen
  refine ⟨?_, hN, hcomp, hlen, rfl⟩
  intro e he
  have htgt : e.tgt ∈ kahnTopo w := (hcomp e.tgt).mpr (hedge e he).2
  exact hRsp e he htgt

/-- C5: a definition that passes the shape and structural phases but contains
a directed cycle is caught by the graph phase: Kahn's order comes up short of
the node count — the exact detection condition of
`detect_cycles_and_toposort` — so `validate_workflow` reports the cycle
error, and `execute_workflow_safe` re-raises the validation failure before
dispatching any node (its result is the validation error alone, for every
capability environment and query). -/
theorem c5_cycle_rejected_before_execution (w : Workflow)
    (hstruct : validateNodesAndEdges w = [])
    (hcyc : HasCycle w) :
    (kahnTopo w).length < (nodeIds w).length ∧
    cycleErrItem ∈ validateWorkflowErrors w true ∧
    (∀ w' : Workflow, cycleErrItem ∈ cyclePhaseErrs w'
      ↔ (kahnTopo w').length ≠ (nodeIds w').length) ∧
    (∀ (env : Env) (q : String),
      executeWorkflowSafe env w q
        = .validationError (validateWorkflowErrors w true)) := by
  obtain ⟨hNodup, -, hedge⟩ := structOK w hstruct
  have hlt : (kahnTopo w).length < (nodeIds w).length := by
    obtain ⟨hN, hM, hRsp⟩ := kahn_sound w hNodup hedge
    have hle : (kahnTopo w).length ≤ (nodeIds w).length :=
      (List.subperm_of_subset hN (fun x hx => hM x hx)).length_le
    rcases Nat.lt_or_ge (kahnTopo w).length (nodeIds w).length with hlt | hge
    · exact hlt
    · exfalso
      have hlen : (kahnTopo w).length = (nodeIds w).length := Nat.le_antisymm hle hge
      obtain ⟨u, v, hedgeuv, hreach⟩ := hcyc
      obtain ⟨e, he, hesrc, hetgt⟩ := hedgeuv
      have htgtMem : e.tgt ∈ kahnTopo w :=
        (kahn_complete w hNodup hedge hlen e.tgt).mpr (hedge e he).2
      have hlt2 := hRsp e he htgtMem
      have hle2 := reaches_indexOf_le w hNodup hedge hlen v u hreach
      rw [hesrc, hetgt] at hlt2
      omega
  have hne : (kahnTopo w).length ≠ (nodeIds w).length := Nat.ne_of_lt hlt
  have hcycErr : cyclePhaseErrs w = [cycleErrItem] := by
    rw [cyclePhaseErrs, if_neg (by simpa using hne)]
  have hgraphNe : validateWorkflowErrors w true = graphPhaseErrors w true := by
    unfold validateWorkflowErrors
    rw [if_neg (by simp [validateShape]), if_neg (by simp [hstruct])]
  have hmem : cycleErrItem ∈ validateWorkflowErrors w true := by
    rw [hgraphNe, graphPhaseErrors, hcycErr]
    simp
  refine ⟨hlt, hmem, ?_, ?_⟩
  · intro w'
    constructor
    · intro hm
      by_contra hc
      rw [cyclePhaseErrs, if_pos (by simpa using hc)] at hm
      exact absurd hm (List.not_mem_nil _)
    · intro hc
      rw [cyclePhaseErrs, if_neg (by simpa using hc)]
      exact List.mem_cons_self _ _
  · intro env q
    have hnonempty : validateWorkflowErrors w true ≠ [] := by
      intro hnil
      rw [hnil] at hmem
      exact absurd hmem (List.not_mem_nil _)
    unfold executeWorkflowSafe
    rw [if_pos (by simp [hnonempty])]

/-- Matching entries all carry an output key set containing the injected
duration key. -/
theorem TraceMatches_keys (env : Env) (w : Workflow) :
    ∀ (off : Nat) (rest : List String) (entries : List TraceEntry),
      TraceMatches env w off rest entries →
      ∀ en ∈ entries, ∃ ks, en.output_keys = some ks ∧ "_exec_duration" ∈ ks := by
  intro off rest
  induction rest generalizing off with
  | nil =>
      intro entries h en hen
      cases entries with
      | nil => exact absurd hen (List.not_mem_nil _)
      | cons e es => exact absurd h (by simp [TraceMatches])
  | cons nid rest ih =>
      intro entries h en hen
      cases entries with
      | nil => exact absurd h (by simp [TraceMatches])
      | cons e es =>
          rw [TraceMatches] at h
          obtain ⟨-, -, -, -, -, hkeys, -, htail⟩ := h
          rcases List.mem_cons.mp hen with hen | hen
          · exact hen ▸ hkeys
          · exact ih (off + 1) es htail en hen

/-- Keys of the parent-merge fold: union of the accumulator's keys and all
merged key sets. -/
theorem foldl_dictUpdate_keys (out : String → Dict) (ps : List String) :
    ∀ (a : Dict) (k : String),
      k ∈ dictKeys (ps.foldl (fun acc p => dictUpdate acc (out p)) a)
        ↔ k ∈ dictKeys a ∨ ∃ p ∈ ps, k ∈ dictKeys (out p) := by
  induction ps with
  | nil => intro a k; simp
  | cons p ps ih =>
      intro a k
      rw [List.foldl_cons, ih, dictKeys_dictUpdate_mem]
      constructor
      · rintro ((h | h) | h)
        · exact Or.inl h
        · exact Or.inr ⟨p, List.mem_cons_self _ _, h⟩
        · obtain ⟨p1, hp1, hk⟩ := h
          exact Or.inr ⟨p1, List.mem_cons_of_mem _ hp1, hk⟩
      · rintro (h | ⟨p1, hp1, hk⟩)
        · exact Or.inl (Or.inl h)
        · rcases List.mem_cons.mp hp1 with hp1 | hp1
          · exact Or.inl (Or.inr (hp1 ▸ hk))
          · exact Or.inr ⟨p1, hp1, hk⟩

/-- The recorded output of one node in a fully successful run (a derived
observable over `context_map`). -/
def recordedOutput (env : Env) (w : Workflow) (q nid : String) : Option Dict :=
  match execContext env w q with
  | some c => c nid
  | none => none

/-- On a validated definition the entry node's assembled input is the seeded
query mapping. -/
theorem entry_input_seed (w : Workflow) (q : String)
    (hv : validateWorkflowErrors w true = []) :
    assembleInput w (initialCtx w q) (startNodeId w) = [("query", Value.vStr q)] := by
  have hpar : parentsOf w (startNodeId w) = [] := validated_entry_no_incoming w hv
  rw [assembleInput]
  simp [hpar, initialCtx]

/-- C9: on every definition accepted by `validate_workflow` (with the default
single-entry requirement), the unique `user_query` node has no incoming edge,
is the only node with no parents — any other parentless node would be
unreachable from it, and an edge into it would close a cycle — is therefore
the first node of the executor's topological order, and its assembled input
is exactly the seeded `{query: user_query}`, never replaced by merged
predecessor outputs. -/
theorem c9_entry_unique_root (w : Workflow) (q : String)
    (hv : validateWorkflowErrors w true = []) :
    parentsOf w (startNodeId w) = [] ∧
    (∀ m ∈ nodeIds w, parentsOf w m = [] → m = startNodeId w) ∧
    (∃ rest, kahnTopo w = startNodeId w :: rest) ∧
    assembleInput w (initialCtx w q) (startNodeId w) = [("query", Value.vStr q)] := by
  exact ⟨validated_entry_no_incoming w hv, validated_unique_root w hv,
    validated_topo_head w hv, entry_input_seed w q hv⟩

/-- C2: the entry node is scheduled first and receives exactly
`{query: initial_query}`; and the input assembled for any node with at least
one direct predecessor is the key-by-key union of the predecessors' recorded
outputs, where a key supplied by several predecessors takes the value of the
predecessor whose incoming edge appears latest in the edge list
(`lastWins` over `parentsOf`, which lists sources in edge order). -/
theorem c2_input_assembly (w : Workflow) (q : String)
    (hv : validateWorkflowErrors w true = []) :
    (∃ rest, kahnTopo w = startNodeId w :: rest) ∧
    assembleInput w (initialCtx w q) (startNodeId w) = [("query", Value.vStr q)] ∧
    (∀ (ctx : Ctx) (nid : String), parentsOf w nid ≠ [] →
      (∀ p ∈ parentsOf w nid, DictWF ((ctx p).getD [])) →
      ∀ k, dictGet? (assembleInput w ctx nid) k
        = lastWins (fun p => (ctx p).getD []) (parentsOf w nid) k) := by
  refine ⟨validated_topo_head w hv, entry_input_seed w q hv, ?_⟩
  intro ctx nid hne hwf k
  have hemp : (parentsOf w nid).isEmpty = false := by
    simpa using hne
  rw [assembleInput]
  simp only [hemp, Bool.false_eq_true, if_false]
  rw [foldl_dictUpdate_lookup _ _ _ _ hwf]
  cases lastWins (fun p => (ctx p).getD []) (parentsOf w nid) k <;> rfl

/-- C1: when a node invocation raises during a validated run, the loop halts
there: the schedule splits as `pre ++ [failing] ++ post`, the returned trace
is exactly the success entries of `pre` (in order, untouched) followed by the
failing node's error entry, the returned failure carries the failing node's
id, its node type and the error message, and no node of `post` ever appears
in the trace. -/
theorem c1_failure_halts (env : Env) (w : Workflow) (q nid nty msg : String)
    (tr : List TraceEntry)
    (hv : validateWorkflowErrors w true = [])
    (hrun : executeWorkflowSafe env w q = .nodeError nid nty msg tr) :
    ∃ pre post entries st,
      kahnTopo w = pre ++ nid :: post ∧
      tr = entries ++ [errorEntry nid nty st msg] ∧
      entries.map (·.node_id) = pre ∧
      (∀ en ∈ entries, en.status = "success") ∧
      (∃ n, lookupNode w nid = some n ∧ nty = n.type) ∧
      (∀ x ∈ post, ∀ en ∈ tr, en.node_id ≠ x) := by
  obtain ⟨hstruct, -, -, ⟨s, rest0, hseq, -⟩, -⟩ := validatePass w hv
  obtain ⟨hNodup, -, hedge⟩ := structOK w hstruct
  rw [executeWorkflowSafe_validated env w q hv s rest0 hseq] at hrun
  cases hloop : execLoop env w (kahnTopo w) (initialCtx w q) [] with
  | done ctx tr2 =>
      rw [hloop] at hrun
      exact absurd hrun (by simp)
  | failed nid2 nty2 msg2 tr2 =>
      rw [hloop] at hrun
      rw [RunResult.nodeError.injEq] at hrun
      obtain ⟨rfl, rfl, rfl, rfl⟩ := hrun
      obtain ⟨pre, post, entries, st, hsplit, htr, hmatch, hnode⟩ :=
        execLoop_failed_spec env w _ _ _ _ _ _ _ (validated_goodNodes w hv) hloop
      obtain ⟨hmap, hall⟩ := TraceMatches_fields env w _ _ _ hmatch
      have htr' : tr2 = entries ++ [errorEntry nid2 nty2 st msg2] := by
        simpa using htr
      refine ⟨pre, post, entries, st, hsplit, htr', hmap, hall, hnode, ?_⟩
      have hN : (kahnTopo w).Nodup := (kahn_sound w hNodup hedge).1
      rw [hsplit, List.nodup_append] at hN
      obtain ⟨hpreN, hconsN, hdisj⟩ := hN
      intro x hx en hen hcon
      have hxpre : x ∉ pre := fun hc => hdisj hc (List.mem_cons_of_mem _ hx)
      have hxnid : x ≠ nid2 :=
        fun hc => (List.nodup_cons.mp hconsN).1 (hc ▸ hx)
      rw [htr'] at hen
      rcases List.mem_append.mp hen with hen | hen
      · apply hxpre
        rw [← hmap]
        exact List.mem_map.mpr ⟨en, hen, hcon⟩
      · have : en = errorEntry nid2 nty2 st msg2 := by simpa using hen
        rw [this] at hcon
        exact hxnid hcon.symm

/-- C7 (amended): every attempted node contributes exactly one trace entry,
in scheduler order, never removed or reordered; each settled entry carries
the node id, the node's type, the start timestamp of its step, and either —
on success — status `success` with the measured duration and the output's
key set, or — on failure — status `error` with the error message and no
recorded duration (the update on the error path sets only status and error).
-/
theorem c7_trace_entry_shape (env : Env) (w : Workflow) (q : String)
    (hv : validateWorkflowErrors w true = []) :
    (∀ res tr, executeWorkflowSafe env w q = .success res tr →
      TraceMatches env w 0 (kahnTopo w) tr) ∧
    (∀ nid nty msg tr, executeWorkflowSafe env w q = .nodeError nid nty msg tr →
      ∃ pre post entries st,
        kahnTopo w = pre ++ nid :: post ∧
        tr = entries ++ [errorEntry nid nty st msg] ∧
        TraceMatches env w 0 pre entries) := by
  obtain ⟨-, -, -, ⟨s, rest0, hseq, -⟩, -⟩ := validatePass w hv
  constructor
  · intro res tr hrun
    rw [executeWorkflowSafe_validated env w q hv s rest0 hseq] at hrun
    cases hloop : execLoop env w (kahnTopo w) (initialCtx w q) [] with
    | failed nid2 nty2 msg2 tr2 =>
        rw [hloop] at hrun
        exact absurd hrun (by simp)
    | done ctx tr2 =>
        rw [hloop] at hrun
        rw [RunResult.success.injEq] at hrun
        obtain ⟨-, rfl⟩ := hrun
        obtain ⟨entries, htr, hmatch, -, -⟩ :=
          execLoop_done_spec env w _ _ _ _ _ (validated_goodNodes w hv) hloop
        have : tr2 = entries := by simpa using htr
        rw [this]
        exact hmatch
  · intro nid nty msg tr hrun
    rw [executeWorkflowSafe_validated env w q hv s rest0 hseq] at hrun
    cases hloop : execLoop env w (kahnTopo w) (initialCtx w q) [] with
    | done ctx tr2 =>
        rw [hloop] at hrun
        exact absurd hrun (by simp)
    | failed nid2 nty2 msg2 tr2 =>
        rw [hloop] at hrun
        rw [RunResult.nodeError.injEq] at hrun
        obtain ⟨rfl, rfl, rfl, rfl⟩ := hrun
        obtain ⟨pre, post, entries, st, hsplit, htr, hmatch, -⟩ :=
          execLoop_failed_spec env w _ _ _ _ _ _ _ (validated_goodNodes w hv) hloop
        exact ⟨pre, post, entries, st, hsplit, by simpa using htr, hmatch⟩

/-- C6 (amended): when every node completes, the engine returns the recorded
output of the first terminal-type node in the definition's **node-list**
order (`output_nodes` is built from `nodes_meta.items()`, i.e. node
insertion order, not scheduler order), together with the full trace; the
outputs of the remaining terminal nodes are not surfaced. -/
theorem c6_first_output_node_list_order (env : Env) (w : Workflow) (q : String)
    (res : Dict) (tr : List TraceEntry)
    (hv : validateWorkflowErrors w true = [])
    (hrun : executeWorkflowSafe env w q = .success res tr) :
    ∃ c, execContext env w q = some c ∧
      res = ((outputNodesOf w).map (fun nid => (c nid).getD [])).headD [] ∧
      ∃ o os, outputNodesOf w = o :: os ∧ ∃ d, c o = some d ∧ res = d := by
  obtain ⟨hstruct, -, hout1, ⟨s, rest0, hseq, -⟩, hlen⟩ := validatePass w hv
  obtain ⟨hNodup, -, hedge⟩ := structOK w hstruct
  rw [executeWorkflowSafe_validated env w q hv s rest0 hseq] at hrun
  rw [execContext_validated env w q hv s rest0 hseq]
  cases hloop : execLoop env w (kahnTopo w) (initialCtx w q) [] with
  | failed nid2 nty2 msg2 tr2 =>
      rw [hloop] at hrun
      exact absurd hrun (by simp)
  | done ctx tr2 =>
      rw [hloop] at hrun
      rw [RunResult.success.injEq] at hrun
      obtain ⟨hres, -⟩ := hrun
      obtain ⟨o, os, hos⟩ : ∃ o os, outputNodesOf w = o :: os := by
        cases hcase : outputNodesOf w with
        | nil => rw [hcase] at hout1; simp at hout1
        | cons o os => exact ⟨o, os, rfl⟩
      obtain ⟨-, -, -, -, hvals⟩ :=
        execLoop_done_spec env w _ _ _ _ _ (validated_goodNodes w hv) hloop
      have hoTopo : o ∈ kahnTopo w := by
        rw [kahn_complete w hNodup hedge hlen]
        exact outputNodes_subset w o (hos ▸ List.mem_cons_self _ _)
      obtain ⟨d, hd, -⟩ := hvals o hoTopo
      refine ⟨ctx, rfl, hres.symm, o, os, hos, d, hd, ?_⟩
      rw [← hres, hos]
      simp [hd]

/-- C10: after every successful node invocation the wrapper injects
`_exec_duration` into the returned dict before it is recorded; consequently,
in a fully successful validated run, every recorded output in the execution
context carries the key, every success trace entry's `output_keys` contains
it, the merged input assembled from the recorded outputs for every node with
at least one predecessor contains it, and the returned canonical result
contains it. -/
theorem c10_exec_duration_injected (env : Env) (w : Workflow) (q : String)
    (res : Dict) (tr : List TraceEntry)
    (hv : validateWorkflowErrors w true = [])
    (hrun : executeWorkflowSafe env w q = .success res tr) :
    (∀ nid d, recordedOutput env w q nid = some d → hasExecDur d = true) ∧
    (∀ en ∈ tr, ∃ ks, en.output_keys = some ks ∧ "_exec_duration" ∈ ks) ∧
    (∃ c, execContext env w q = some c ∧
      ∀ nid ∈ kahnTopo w, parentsOf w nid ≠ [] →
        hasExecDur (assembleInput w c nid) = true) ∧
    hasExecDur res = true := by
  obtain ⟨hstruct, -, hout1, ⟨s, rest0, hseq, -⟩, hlen⟩ := validatePass w hv
  obtain ⟨hNodup, -, hedge⟩ := structOK w hstruct
  obtain ⟨rest1, hhead⟩ := validated_topo_head w hv
  rw [executeWorkflowSafe_validated env w q hv s rest0 hseq] at hrun
  have hctxEq := execContext_validated env w q hv s rest0 hseq
  cases hloop : execLoop env w (kahnTopo w) (initialCtx w q) [] with
  | failed nid2 nty2 msg2 tr2 =>
      rw [hloop] at hrun
      exact absurd hrun (by simp)
  | done ctx tr2 =>
      rw [hloop] at hrun
      rw [RunResult.success.injEq] at hrun
      obtain ⟨hres, rfl⟩ := hrun
      rw [hloop] at hctxEq
      have hctx2 : execContext env w q = some ctx := by rw [hctxEq]
      obtain ⟨entries, htr, hmatch, hstab, hvals⟩ :=
        execLoop_done_spec env w _ _ _ _ _ (validated_goodNodes w hv) hloop
      have htr' : tr2 = entries := by simpa using htr
      refine ⟨?_, ?_, ?_, ?_⟩
      · intro nid d hrec
        rw [recordedOutput, hctx2] at hrec
        have hrec2 : ctx nid = some d := hrec
        by_cases hmem : nid ∈ kahnTopo w
        · obtain ⟨d2, hd2, hkey⟩ := hvals nid hmem
          rw [hd2, Option.some.injEq] at hrec2
          exact hrec2 ▸ hkey
        · rw [hstab nid hmem, initialCtx] at hrec2
          by_cases hs : nid = startNodeId w
          · exfalso
            apply hmem
            rw [hs, hhead]
            exact List.mem_cons_self _ _
          · rw [if_neg hs] at hrec2
            exact absurd hrec2 (by simp)
      · rw [htr']
        exact TraceMatches_keys env w _ _ _ hmatch
      · refine ⟨ctx, hctx2, ?_⟩
        intro nid hnid hpar
        obtain ⟨p, hp⟩ : ∃ p, p ∈ parentsOf w nid := by
          cases hcase : parentsOf w nid with
          | nil => exact absurd hcase hpar
          | cons p ps => exact ⟨p, List.mem_cons_self _ _⟩
        have hpNode : p ∈ nodeIds w := by
          rw [parentsOf] at hp
          rcases List.mem_map.mp hp with ⟨e, he, hesrc⟩
          exact hesrc ▸ (hedge e (List.mem_filter.mp he).1).1
        have hpTopo : p ∈ kahnTopo w :=
          (kahn_complete w hNodup hedge hlen p).mpr hpNode
        obtain ⟨dp, hdp, hkey⟩ := hvals p hpTopo
        have hemp : (parentsOf w nid).isEmpty = false := by simpa using hpar
        rw [assembleInput]
        simp only [hemp, Bool.false_eq_true, if_false]
        rw [hasExecDur, ← mem_dictKeys_iff_isSome]
        rw [foldl_dictUpdate_keys]
        refine Or.inr ⟨p, hp, ?_⟩
        rw [hdp]
        rw [hasExecDur] at hkey
        rw [← mem_dictKeys_iff_isSome] at hkey
        simpa using hkey
      · obtain ⟨o, os, hos⟩ : ∃ o os, outputNodesOf w = o :: os := by
          cases hcase : outputNodesOf w with
          | nil => rw [hcase] at hout1; simp at hout1
          | cons o os => exact ⟨o, os, rfl⟩
        have hoTopo : o ∈ kahnTopo w := by
          rw [kahn_complete w hNodup hedge hlen]
          exact outputNodes_subset w o (hos ▸ List.mem_cons_self _ _)
        obtain ⟨d, hd, hkey⟩ := hvals o hoTopo
        rw [← hres, hos]
        simpa [hd] using hkey

/-- C8: control-flow of `_safe_run_node` around the LLM semaphore: the permit
count is restored on every path out of the invocation; the release counter
advances exactly when the acquire counter does (exactly once per successful
acquisition, zero times otherwise); and when acquisition times out for a
rate-limited node, the call fails with the resource-exhaustion error and
the semaphore state is completely untouched — no permit was ever held. -/
theorem c8_semaphore_no_leak (isLLM acquireOk : Bool) (body : BodyOutcome)
    (dur : Nat) (s : SemLog) :
    ((safeRunNodeModel isLLM acquireOk body dur s).2.permits = s.permits) ∧
    ((safeRunNodeModel isLLM acquireOk body dur s).2.releases
      = s.releases + (if isLLM && acquireOk then 1 else 0)) ∧
    ((safeRunNodeModel isLLM acquireOk body dur s).2.acquires
      = s.acquires + (if isLLM && acquireOk then 1 else 0)) ∧
    (isLLM = true → acquireOk = false →
      (safeRunNodeModel isLLM acquireOk body dur s).2 = s ∧
      (safeRunNodeModel isLLM acquireOk body dur s).1
        = .error "Could not acquire LLM semaphore (too many concurrent LLM calls)") := by
  cases isLLM <;> cases acquireOk <;> cases body <;>
    simp [safeRunNodeModel, semAcquire, semRelease]

/-- C4: validation phases gate on the previous phase being clean — when the
structural phase reports anything, its errors alone are returned and the
graph phase is skipped — while within the graph phase every check runs and
all violations are aggregated: a structurally clean definition with two
entry-type nodes yields the single-entry error exactly once, concatenated
with whatever terminal-count, connectivity and cycle errors the same pass
found. -/
theorem c4_validation_aggregation (w : Workflow)
    (hstruct : validateNodesAndEdges w = [])
    (huq : (userQueryNodesOf w).length = 2) :
    validateWorkflowErrors w true
      = uqErrItem :: (outputPhaseErrs w ++ connPhaseErrs w ++ cyclePhaseErrs w) ∧
    (validateWorkflowErrors w true).count uqErrItem = 1 ∧
    (∀ w' : Workflow, validateNodesAndEdges w' ≠ [] →
      validateWorkflowErrors w' true = validateNodesAndEdges w') := by
  have hgraph : validateWorkflowErrors w true = graphPhaseErrors w true := by
    unfold validateWorkflowErrors
    rw [if_neg (by simp [validateShape]), if_neg (by simp [hstruct])]
  have huqErr : uqPhaseErrs w true = [uqErrItem] := by
    rw [uqPhaseErrs, if_pos (by simp [huq])]
  have heq : validateWorkflowErrors w true
      = uqErrItem :: (outputPhaseErrs w ++ connPhaseErrs w ++ cyclePhaseErrs w) := by
    rw [hgraph, graphPhaseErrors, huqErr]
    simp [List.append_assoc]
  refine ⟨heq, ?_, ?_⟩
  · rw [heq, List.count_cons]
    have h1 : uqErrItem ∉ outputPhaseErrs w := by
      intro hc
      rw [outputPhaseErrs] at hc
      by_cases hcond : (outputNodesOf w).length < 1
      · rw [if_pos hcond] at hc
        have : uqErrItem = outputErrItem := by simpa using hc
        exact absurd (congrArg ValidationErrorItem.field this) (by decide)
      · rw [if_neg hcond] at hc
        exact absurd hc (List.not_mem_nil _)
    have h2 : uqErrItem ∉ connPhaseErrs w := by
      intro hc
      rw [connPhaseErrs] at hc
      cases hcase : userQueryNodesOf w with
      | nil => rw [hcase] at hc; exact absurd hc (List.not_mem_nil _)
      | cons st tl =>
          rw [hcase] at hc
          by_cases hcond : (unreachableFrom w st).isEmpty
          · simp only [hcond, if_true] at hc
            exact absurd hc (List.not_mem_nil _)
          · simp only [hcond, Bool.false_eq_true, if_false] at hc
            have heq2 := List.mem_singleton.mp hc
            have hfield : uqErrItem.field = "connectivity" := by
              rw [heq2]
            exact absurd hfield (by decide)
    have h3 : uqErrItem ∉ cyclePhaseErrs w := by
      intro hc
      rw [cyclePhaseErrs] at hc
      by_cases hcond : (kahnTopo w).length == (nodeIds w).length
      · rw [if_pos hcond] at hc
        exact absurd hc (List.not_mem_nil _)
      · rw [if_neg hcond] at hc
        have : uqErrItem = cycleErrItem := by simpa using hc
        exact absurd (congrArg ValidationErrorItem.field this) (by decide)
    have hz : (outputPhaseErrs w ++ connPhaseErrs w ++ cyclePhaseErrs w).count
        uqErrItem = 0 := by
      rw [List.count_eq_zero]
      intro hc
      rcases List.mem_append.mp hc with hc | hc
      · rcases List.mem_append.mp hc with hc | hc
        · exact h1 hc
        · exact h2 hc
      · exact h3 hc
    rw [hz]
    simp
  · intro w' hne
    unfold validateWorkflowErrors
    rw [if_neg (by simp [validateShape]), if_pos (by simp [hne])]

/-! ### Concrete definitions for witnesses and counterexamples -/

/-- Chain `entry -> A -> B -> terminal` used by the failure scenarios. -/
def wChain : Workflow :=
  { nodes := [⟨"q", "user_query", []⟩, ⟨"A", "llm_engine", []⟩,
      ⟨"B", "knowledge_base", []⟩, ⟨"t", "output", []⟩],
    edges := [⟨"q", "A"⟩, ⟨"A", "B"⟩, ⟨"B", "t"⟩] }

/-- Oracle where node `A`'s capability raises `boom` and all others return
an empty dict. -/
def envChain : Env :=
  { body := fun n _ => if n.id = "A" then .exn "boom" else .ok [],
    acquireOk := fun _ => true,
    startedAt := fun i => i,
    durOuter := fun _ => 5,
    durInner := fun _ => 7 }

/-- Oracle where every capability succeeds. -/
def envOk : Env :=
  { body := fun n _ =>
      if n.id = "q" then .ok [("query", Value.vStr "hello")] else .ok [],
    acquireOk := fun _ => true,
    startedAt := fun i => i,
    durOuter := fun _ => 3,
    durInner := fun _ => 4 }

/-- Trace entry of the successful `q` step in the failing chain run. -/
def eChainQ : TraceEntry :=
  { node_id := "q", node_type := "user_query", started_at := 0,
    status := "success", duration_seconds := some 5,
    output_keys := some ["_exec_duration"], error := none }

/-- Trace entry of the failing `A` step in the failing chain run. -/
def eChainA : TraceEntry :=
  { node_id := "A", node_type := "llm_engine", started_at := 1,
    status := "error", duration_seconds := none,
    output_keys := none, error := some "boom" }

/-- Result of the fully successful chain run. -/
def resOkChain : Dict := [("_exec_duration", Value.vNat 4)]

/-- Trace of the fully successful chain run. -/
def trOkChain : List TraceEntry :=
  [ { node_id := "q", node_type := "user_query", started_at := 0,
      status := "success", duration_seconds := some 3,
      output_keys := some ["query", "_exec_duration"], error := none },
    { node_id := "A", node_type := "llm_engine", started_at := 1,
      status := "success", duration_seconds := some 3,
      output_keys := some ["_exec_duration"], error := none },
    { node_id := "B", node_type := "knowledge_base", started_at := 2,
      status := "success", duration_seconds := some 3,
      output_keys := some ["_exec_duration"], error := none },
    { node_id := "t", node_type := "output", started_at := 3,
      status := "success", duration_seconds := some 3,
      output_keys := some ["_exec_duration"], error := none } ]

/-- Two terminal nodes listed in the order `q, B, A` with edges
`q -> A -> B`: node-list order and scheduler order disagree on the first
terminal. -/
def wTwoOut : Workflow :=
  { nodes := [⟨"q", "user_query", []⟩, ⟨"B", "output", []⟩, ⟨"A", "output", []⟩],
    edges := [⟨"q", "A"⟩, ⟨"A", "B"⟩] }

/-- Oracle giving `A` and `B` distinguishable outputs. -/
def envTwoOut : Env :=
  { body := fun n _ =>
      if n.id = "A" then .ok [("tag", Value.vStr "A")]
      else if n.id = "B" then .ok [("tag", Value.vStr "B")] else .ok [],
    acquireOk := fun _ => true,
    startedAt := fun i => i,
    durOuter := fun _ => 0,
    durInner := fun _ => 0 }

/-- Result of the two-terminal run: node `B`'s output (first in node-list
order), not `A`'s (first in scheduler order). -/
def resTwoOut : Dict := [("tag", Value.vStr "B"), ("_exec_duration", Value.vNat 0)]

/-- Trace of the two-terminal run. -/
def trTwoOut : List TraceEntry :=
  [ { node_id := "q", node_type := "user_query", started_at := 0,
      status := "success", duration_seconds := some 0,
      output_keys := some ["_exec_duration"], error := none },
    { node_id := "A", node_type := "output", started_at := 1,
      status := "success", duration_seconds := some 0,
      output_keys := some ["tag", "_exec_duration"], error := none },
    { node_id := "B", node_type := "output", started_at := 2,
      status := "success", duration_seconds := some 0,
      output_keys := some ["tag", "_exec_duration"], error := none } ]

/-- Structurally clean definition with two entry-type nodes (and an
unreachable one), for the aggregation claim. -/
def wTwoUq : Workflow :=
  { nodes := [⟨"a", "user_query", []⟩, ⟨"b", "user_query", []⟩,
      ⟨"o", "output", []⟩],
    edges := [⟨"a", "o"⟩] }

/-- Structurally clean definition with a self-loop on `a`. -/
def wCycle : Workflow :=
  { nodes := [⟨"q", "user_query", []⟩, ⟨"a", "knowledge_base", []⟩,
      ⟨"o", "output", []⟩],
    edges := [⟨"q", "a"⟩, ⟨"a", "a"⟩, ⟨"a", "o"⟩] }

/-! ### Witnesses and counterexamples -/

/-- Witness for C1: in the chain where `A`'s capability fails, the run halts
at `A` with exactly the `q` success entry and the `A` error entry, and the
schedule splits around `A`. -/
theorem c1_witness :
    executeWorkflowSafe envChain wChain "hello"
      = .nodeError "A" "llm_engine" "boom" [eChainQ, eChainA] ∧
    ∃ pre post entries st,
      kahnTopo wChain = pre ++ "A" :: post ∧
      ([eChainQ, eChainA] : List TraceEntry)
        = entries ++ [errorEntry "A" "llm_engine" st "boom"] := by
  refine ⟨rfl, ?_⟩
  obtain ⟨pre, post, entries, st, h1, h2, -, -, -, -⟩ :=
    c1_failure_halts envChain wChain "hello" "A" "llm_engine" "boom"
      [eChainQ, eChainA] rfl rfl
  exact ⟨pre, post, entries, st, h1, h2⟩

/-- Witness for C2: the seeded entry input of the chain resolves the `query`
key to the initial query. -/
theorem c2_witness :
    validateWorkflowErrors wChain true = [] ∧
    dictGet? (assembleInput wChain (initialCtx wChain "hello") (startNodeId wChain))
      "query" = some (Value.vStr "hello") := by
  refine ⟨rfl, ?_⟩
  rw [(c2_input_assembly wChain "hello" rfl).2.1]
  rfl

/-- Witness for C3 on the concrete chain. -/
theorem c3_witness :
    (kahnTopo wChain).Nodup ∧
    (kahnTopo wChain).length = (nodeIds wChain).length ∧
    (kahnTopo wChain).indexOf "q" < (kahnTopo wChain).indexOf "A" := by
  obtain ⟨h1, h2, h3, h4, h5⟩ := c3_scheduler_topological_order wChain rfl
  refine ⟨h2, h4, ?_⟩
  exact h1 ⟨"q", "A"⟩ (List.mem_cons_self _ _)

/-- Witness for C4: the two-entry definition yields the single-entry error
exactly once, next to the independent connectivity violation found in the
same pass. -/
theorem c4_witness :
    validateNodesAndEdges wTwoUq = [] ∧
    (validateWorkflowErrors wTwoUq true).count uqErrItem = 1 ∧
    validateWorkflowErrors wTwoUq true
      = [uqErrItem, ⟨"connectivity", "Unreachable nodes from user_query: [b]"⟩] := by
  exact ⟨rfl, (c4_validation_aggregation wTwoUq rfl rfl).2.1, rfl⟩

/-- Witness for C5 on the self-loop definition. -/
theorem c5_witness :
    (kahnTopo wCycle).length < (nodeIds wCycle).length ∧
    cycleErrItem ∈ validateWorkflowErrors wCycle true ∧
    executeWorkflowSafe envChain wCycle "x"
      = .validationError (validateWorkflowErrors wCycle true) := by
  have h := c5_cycle_rejected_before_execution wCycle rfl
    ⟨"a", "a", ⟨⟨"a", "a"⟩, List.mem_cons_of_mem _ (List.mem_cons_self _ _), rfl, rfl⟩,
      Reaches.refl "a"⟩
  exact ⟨h.1, h.2.1, h.2.2.2 envChain "x"⟩

/-- Counterexample for C6 as stated: with terminals listed `B` before `A`
but scheduled `A` before `B`, the run returns `B`'s recorded output while
the first terminal in scheduler (topological) order is `A`, whose recorded
output differs. -/
theorem c6_counterexample :
    ((kahnTopo wTwoOut).filter
        (fun nid => ((lookupNode wTwoOut nid).map (fun n => n.type)).getD ""
          == "output")).headD "" = "A" ∧
    executeWorkflowSafe envTwoOut wTwoOut "x" = .success resTwoOut trTwoOut ∧
    recordedOutput envTwoOut wTwoOut "x" "A"
      = some [("tag", Value.vStr "A"), ("_exec_duration", Value.vNat 0)] ∧
    resTwoOut ≠ [("tag", Value.vStr "A"), ("_exec_duration", Value.vNat 0)] := by
  exact ⟨rfl, rfl, rfl, by decide⟩

/-- Witness for the amended C6 on the two-terminal run. -/
theorem c6_witness :
    validateWorkflowErrors wTwoOut true = [] ∧
    ∃ c, execContext envTwoOut wTwoOut "x" = some c ∧
      resTwoOut = ((outputNodesOf wTwoOut).map (fun nid => (c nid).getD [])).headD [] := by
  refine ⟨rfl, ?_⟩
  obtain ⟨c, h1, h2, -⟩ :=
    c6_first_output_node_list_order envTwoOut wTwoOut "x" resTwoOut trTwoOut rfl rfl
  exact ⟨c, h1, h2⟩

/-- Counterexample for C7 as stated: the error entry of the failing chain
run records status and error message but no duration, contradicting "updated
with the status plus the duration and either the output's key set or the
error message". -/
theorem c7_counterexample :
    executeWorkflowSafe envChain wChain "hello"
      = .nodeError "A" "llm_engine" "boom" [eChainQ, eChainA] ∧
    eChainA.status = "error" ∧
    eChainA.duration_seconds = none := by
  exact ⟨rfl, rfl, rfl⟩

/-- Witness for the amended C7 on the failing chain run. -/
theorem c7_witness :
    ∃ pre post entries st,
      kahnTopo wChain = pre ++ "A" :: post ∧
      ([eChainQ, eChainA] : List TraceEntry)
        = entries ++ [errorEntry "A" "llm_engine" st "boom"] ∧
      TraceMatches envChain wChain 0 pre entries := by
  exact (c7_trace_entry_shape envChain wChain "hello" rfl).2 "A" "llm_engine" "boom"
    [eChainQ, eChainA] rfl

/-- Witness for C8: a rate-limited invocation whose acquisition times out
fails with the resource-exhaustion error and leaves the semaphore state
untouched. -/
theorem c8_witness :
    (safeRunNodeModel true false (BodyOutcome.ok []) 0 ⟨4, 0, 0⟩).1
      = .error "Could not acquire LLM semaphore (too many concurrent LLM calls)" ∧
    (safeRunNodeModel true false (BodyOutcome.ok []) 0 ⟨4, 0, 0⟩).2 = ⟨4, 0, 0⟩ := by
  have h := c8_semaphore_no_leak true false (BodyOutcome.ok []) 0 ⟨4, 0, 0⟩
  exact ⟨(h.2.2.2 rfl rfl).2, (h.2.2.2 rfl rfl).1⟩

/-- Witness for C9 on the chain. -/
theorem c9_witness :
    validateWorkflowErrors wChain true = [] ∧
    parentsOf wChain (startNodeId wChain) = [] ∧
    (∃ rest, kahnTopo wChain = startNodeId wChain :: rest) ∧
    assembleInput wChain (initialCtx wChain "hi") (startNodeId wChain)
      = [("query", Value.vStr "hi")] := by
  have h := c9_entry_unique_root wChain "hi" rfl
  exact ⟨rfl, h.1, h.2.2.1, h.2.2.2⟩

/-- Witness for C10 on the fully successful chain run. -/
theorem c10_witness :
    executeWorkflowSafe envOk wChain "hello" = .success resOkChain trOkChain ∧
    hasExecDur resOkChain = true ∧
    recordedOutput envOk wChain "hello" "t" = some resOkChain := by
  have h := c10_exec_duration_injected envOk wChain "hello" resOkChain trOkChain rfl rfl
  exact ⟨rfl, h.2.2.2, rfl⟩
